import Mathlib

/-!
# Template registry construction of `render.go`

A shallow embedding of the template registry builder of `render.go`
(`getExt`, `Render.compile`, `Render.Init`, `Render.Instance`, `New`) together
with the properties of the build that its specification states.

Modelling conventions.

* A Go `string` is a Lean `String`, read as its sequence of characters
  (`String.data`).  The only bytes the code inspects are `.` and the path
  separator, both one byte long, and the only slice it takes ends where the
  first `.` starts, so working with characters instead of bytes changes nothing.
* A Go `error` is the `String` of its message.
* The map `Render.Templates` is a reference shared by every copy of a `Render`
  value.  Its contents are a `Registry`, and code that writes to it returns the
  new contents next to its result (`Effect`).  A `Registry` is given by what an
  index expression `m[k]` reads, which is the only way the code looks at it.
  The map is allocated, as `New` allocates it.
* The file system under `TemplatesDir` is a `Node`: a tree of files and
  directories together with the results the system calls of the walk give on
  them.  `filepath.Walk` is embedded from the Go library.
* `html/template` is a parameter of the development (`Host.Parse`), so the
  theorems hold for every parser.  Whether a text parses under a name is taken
  to depend on the function map, the name and the text only.  The registry
  stores pointers to templates; the template set those pointers lead into, which
  all files of a build share, is embedded with `Library` and `compileSet`.
* `log.Printf` writes to the log and changes nothing else; it is left out.
-/

namespace render

/-! ## `strings` -/

namespace strings

/-- The position `strings.Index(s, sep)` returns for a one-byte `sep`:
the offset of the first occurrence, `-1` when there is none. -/
def indexChars : List Char → Char → Int
  | [], _ => -1
  | x :: xs, c =>
    if x = c then 0
    else
      let i := indexChars xs c
      if i = -1 then -1 else i + 1

/-- The pieces `strings.Split(s, sep)` returns for a one-byte `sep`: the text
between consecutive occurrences of `sep`, always at least one piece. -/
def splitChars : List Char → Char → List (List Char)
  | [], _ => [[]]
  | x :: xs, c =>
    if x = c then [] :: splitChars xs c
    else
      match splitChars xs c with
      | [] => [[x]]
      | p :: ps => (x :: p) :: ps

/-- The text `strings.Join(elems, sep)` returns for a one-byte `sep`. -/
def joinChars : List (List Char) → Char → List Char
  | [], _ => []
  | [p], _ => p
  | p :: q :: ps, c => p ++ c :: joinChars (q :: ps) c

/-- Go `strings.Index(s, sep)`, for a separator of one byte. -/
def Index (s : String) (sep : Char) : Int := indexChars s.data sep

/-- Go `strings.Split(s, sep)`, for a separator of one byte. -/
def Split (s : String) (sep : Char) : List String :=
  (splitChars s.data sep).map String.mk

/-- Go `strings.Join(elems, sep)`, for a separator of one byte. -/
def Join (elems : List String) (sep : Char) : String :=
  String.mk (joinChars (elems.map String.data) sep)

end strings

/-- Source `getExt`:
`if strings.Index(s, ".") == -1 { return "" }`
`return "." + strings.Join(strings.Split(s, ".")[1:], ".")`. -/
def getExt (s : String) : String :=
  if strings.Index s '.' = -1 then ""
  else "." ++ strings.Join ((strings.Split s '.').drop 1) '.'

/-! ## The host: file system, `path/filepath`, `io/ioutil`, `html/template` -/

/-- What the program's environment fixes: the path separator of the operating
system and the template parser of `html/template`.  `Parse funcs name text`
stands for `template.New(name)`, `Funcs(funcs)` when `funcs` is not `nil`, and
then `Parse(text)`: the pointer `Parse` returns, or its error.  A `Tmpl` is
that pointer, a `*template.Template`; what the template behind it holds is
decided by the template set it belongs to (see `Library` and `compileSet`). -/
structure Host where
  Tmpl : Type
  Funcs : Type
  Separator : Char
  Parse : Option Funcs → String → String → Except String Tmpl

/-- How a call of the walk callback ends: it returns a `nil` error, it returns
a non-nil error, or it panics. -/
inductive Flow where
  | next
  | fail (e : String)
  | panic (e : String)
deriving DecidableEq, Repr

mutual
/-- What the file system holds at a path.  `file read` is an entry that is not
a directory, with the result `ioutil.ReadFile` gives on it; `dir entries` is a
directory with its listing, in the sorted order `filepath.Walk` visits it;
`baddir e` is a directory that cannot be listed; `nostat e` is a path on which
`os.Lstat` fails. -/
inductive Node where
  | file (read : Except String String)
  | dir (entries : Entries)
  | baddir (e : String)
  | nostat (e : String)
/-- The listing of a directory: names and what they lead to. -/
inductive Entries where
  | nil
  | cons (name : String) (node : Node) (rest : Entries)
end

/-- A path `filepath.Walk` hands to its callback: the names that lead from the
root of the walk to the entry, and what the file system holds there. -/
structure Path where
  names : List String
  node : Node

namespace filepath

/-- Go `filepath.ToSlash`: the separator replaced by a slash. -/
def ToSlash (H : Host) (path : String) : String :=
  if H.Separator = '/' then path
  else String.mk (path.data.map fun c => if c = H.Separator then '/' else c)

/-- Go `filepath.Rel(basepath, targpath)` on the paths `filepath.Walk` produces
from `basepath`: `"."` for the root itself, otherwise the names below the root
joined by the separator.  On these paths `Rel` returns no error. -/
def Rel (H : Host) (_basepath : String) (targpath : Path) : Except String String :=
  match targpath.names with
  | [] => .ok "."
  | n :: ns => .ok (strings.Join (n :: ns) H.Separator)

/-- The error `filepath.Walk` hands to the callback for an entry: the error of
`os.Lstat` or of reading the directory, `nil` otherwise. -/
def perrOf : Node → Option String
  | .file _ => none
  | .dir _ => none
  | .baddir e => some e
  | .nostat e => some e

mutual
/-- Go `filepath.walk`, with the `os.Lstat` its callers do first: the callback
is called on the entry, then on the entries of a directory in order, and the
first result that is not a `nil` error ends the walk.  (The callback of this
program never returns `filepath.SkipDir`.) -/
def walk {σ : Type} (walkFn : Path → Option String → σ → σ × Flow) (names : List String) :
    Node → σ → σ × Flow
  | .file rd, s => walkFn ⟨names, .file rd⟩ none s
  | .dir es, s =>
    match walkFn ⟨names, .dir es⟩ none s with
    | (s1, .next) => walkEntries walkFn names es s1
    | r => r
  | .baddir e, s => walkFn ⟨names, .baddir e⟩ (some e) s
  | .nostat e, s => walkFn ⟨names, .nostat e⟩ (some e) s
/-- The loop of `filepath.walk` over the names of a directory. -/
def walkEntries {σ : Type} (walkFn : Path → Option String → σ → σ × Flow)
    (names : List String) : Entries → σ → σ × Flow
  | .nil, s => (s, .next)
  | .cons name node rest, s =>
    match walk walkFn (names ++ [name]) node s with
    | (s1, .next) => walkEntries walkFn names rest s1
    | r => r
end

/-- Go `filepath.Walk(root, walkFn)`; `root` is what the file system holds at
the root path. -/
def Walk {σ : Type} (root : Node) (walkFn : Path → Option String → σ → σ × Flow) (s : σ) :
    σ × Flow :=
  walk walkFn [] root s

mutual
/-- The entries of a tree in the order `filepath.walk` reaches them. -/
def visitsFrom (names : List String) : Node → List Path
  | .file rd => [⟨names, .file rd⟩]
  | .dir es => ⟨names, .dir es⟩ :: visitsIn names es
  | .baddir e => [⟨names, .baddir e⟩]
  | .nostat e => [⟨names, .nostat e⟩]
/-- The entries below a directory in the order `filepath.walk` reaches them. -/
def visitsIn (names : List String) : Entries → List Path
  | .nil => []
  | .cons name node rest => visitsFrom (names ++ [name]) node ++ visitsIn names rest
end

/-- The entries of the tree under the root, in walk order. -/
def visits (root : Node) : List Path := visitsFrom [] root

/-- The callback run over a list of entries until a call does not return a
`nil` error. -/
def runVisits {σ : Type} (walkFn : Path → Option String → σ → σ × Flow) :
    List Path → σ → σ × Flow
  | [], s => (s, .next)
  | p :: ps, s =>
    match walkFn p (perrOf p.node) s with
    | (s1, .next) => runVisits walkFn ps s1
    | r => r

end filepath

namespace ioutil

/-- Go `ioutil.ReadFile(path)`: the contents of a file, an error on an entry
that cannot be read; reading a directory is an error. -/
def ReadFile (path : Path) : Except String String :=
  match path.node with
  | .file rd => rd
  | .dir _ => .error "read: is a directory"
  | .baddir e => .error e
  | .nostat e => .error e

end ioutil

/-! ## `render.go` -/

/-- The contents of a `map[string]*template.Template`: what `m[k]` reads,
`none` for the `nil` it reads at an absent key. -/
abbrev Registry (τ : Type) := String → Option τ

/-- The empty map `map[string]*template.Template{}`. -/
def Registry.empty {τ : Type} : Registry τ := fun _ => none

/-- The assignment `m[k] = v`. -/
def Registry.set {τ : Type} (m : Registry τ) (k : String) (v : τ) : Registry τ :=
  fun k1 => if k1 = k then some v else m k1

/-- The key `k` is present in the map. -/
def Registry.HasKey {τ : Type} (m : Registry τ) (k : String) : Prop := (m k).isSome = true

instance {τ : Type} (m : Registry τ) (k : String) : Decidable (m.HasKey k) := by
  unfold Registry.HasKey; infer_instance

/-- Source `type Render struct`; `Templates` is the contents of the map the
field refers to. -/
structure Render (H : Host) where
  Templates : Registry H.Tmpl
  TemplatesDir : String
  Layout : String
  Exts : List String
  TemplateFuncMap : Option H.Funcs
  Debug : Bool

/-- Source `New`. -/
def New (H : Host) : Render H where
  Templates := Registry.empty
  TemplatesDir := "app/views/"
  Layout := "layouts/base"
  Exts := [".html"]
  TemplateFuncMap := none
  Debug := false

/-- How a call ends: it returns a value or it panics. -/
inductive Outcome (α : Type) where
  | returned (a : α)
  | panicked (e : String)
deriving DecidableEq

/-- A call that may write to the shared map: the contents of the map when the
call ends, and how it ends. -/
structure Effect (H : Host) (α : Type) where
  Templates : Registry H.Tmpl
  outcome : Outcome α

/-- The slice `rp[0 : len(rp)-len(ext)]`. -/
def stripExt (rp ext : String) : String :=
  String.mk (rp.data.take (rp.data.length - ext.data.length))

/-- The loop `for _, extension = range r.Exts` in the callback of
`Render.compile`, on the extensions still to come and the contents of
`r.Templates`. -/
def rangeExts (H : Host) (r : Render H) (path : Path) (rp ext : String) :
    List String → Registry H.Tmpl → Registry H.Tmpl × Flow
  | [], m => (m, .next)
  | extension :: rest, m =>
    if ext = extension then
      match ioutil.ReadFile path with
      | .error e => (m, .panic e)
      | .ok buf =>
        let name := filepath.ToSlash H (stripExt rp ext)
        match H.Parse r.TemplateFuncMap name buf with
        | .error e => (m, .panic e)
        | .ok tmpl => rangeExts H r path rp ext rest (m.set name tmpl)
    else rangeExts H r path rp ext rest m

/-- The callback `Render.compile` passes to `filepath.Walk`. -/
def walkFn (H : Host) (r : Render H) (path : Path) (perr : Option String)
    (m : Registry H.Tmpl) : Registry H.Tmpl × Flow :=
  match perr with
  | some e => (m, .fail e)
  | none =>
    match filepath.Rel H r.TemplatesDir path with
    | .error e => (m, .fail e)
    | .ok rp => rangeExts H r path rp (getExt rp) r.Exts m

/-- Source `Render.compile`, on the tree `fs` the file system holds at
`r.TemplatesDir`.  The error `filepath.Walk` returns is dropped. -/
def compile (H : Host) (r : Render H) (fs : Node) : Effect H Unit :=
  match H.Parse none r.TemplatesDir "SlothNinja" with
  | .error e => ⟨r.Templates, .panicked e⟩
  | .ok _ =>
    match filepath.Walk fs (walkFn H r) r.Templates with
    | (m, .panic e) => ⟨m, .panicked e⟩
    | (m, _) => ⟨m, .returned ()⟩

/-- Source `Render.Init`: `r.compile()` and `return r`. -/
def Init (H : Host) (r : Render H) (fs : Node) : Effect H (Render H) :=
  match compile H r fs with
  | ⟨m, .panicked e⟩ => ⟨m, .panicked e⟩
  | ⟨m, .returned _⟩ => ⟨m, .returned { r with Templates := m }⟩

/-- Go `render.HTML` of gin, with the fields the source sets. -/
structure HTML (H : Host) (δ : Type) where
  Template : Option H.Tmpl
  Data : δ

/-- Source `Render.Instance`. -/
def Instance {δ : Type} (H : Host) (r : Render H) (name : String) (data : δ) :
    Effect H (HTML H δ) :=
  ⟨r.Templates, .returned { Template := r.Templates name, Data := data }⟩

/-! ## The template set of a build

`Render.compile` parses every file into one template set: `t` of line 227,
which `t.New(name)` of line 260 extends, and the registry keeps the pointers
`Parse` returns (line 267).  In `html/template`, `t.New(name)` puts a new
template under the name and leaves the trees of the set as they are, and a
`Parse` that succeeds adds the trees of its text to the set and then gives
every template of the set the tree the set holds under its name.  So the
pointer a build stores under a key leads to the template of that name in the
set, and what it holds when the build ends is what the set then holds under
that name.  This section embeds the build together with the trees of the
set.  (When a file derives the name of `t` itself, `t.New` makes `t` start a
new set for the files after it; the trees are kept by name here all the same,
so a template can only be reported as rewritten by a later file more often
than it is, and a statement that no later file gives a tree for its name
covers both.) -/

/-- A `*template.Template` as the registry stores it: the template that the
set of the build which stored it holds under `name`. -/
structure Ref where
  name : String
deriving DecidableEq, Repr

/-- The package `html/template` with the trees of its templates.
`Parse funcs name text` stands for `parse.Parse` on the text of a template
named `name`: the trees the text defines, by name, which are the tree of the
text itself under `name` and one tree for every `define` (or `block`) in it,
or the error.  `IsEmptyTree` is `parse.IsEmptyTree`. -/
structure Library where
  Tree : Type
  Funcs : Type
  Separator : Char
  IsEmptyTree : Tree → Bool
  Parse : Option Funcs → String → String → Except String (List (String × Tree))

/-- The host a library gives: `Parse` returns the pointer to the template of
that name when the text parses. -/
@[reducible] def Library.host (L : Library) : Host where
  Tmpl := Ref
  Funcs := L.Funcs
  Separator := L.Separator
  Parse := fun funcs name text =>
    match L.Parse funcs name text with
    | .error e => .error e
    | .ok _ => .ok ⟨name⟩

/-- The trees a template set holds, by template name. -/
abbrev TemplateSet (L : Library) := String → Option L.Tree

/-- The tree the template behind a pointer holds in a set. -/
def Ref.tree {L : Library} (s : TemplateSet L) (ref : Ref) : Option L.Tree := s ref.name

namespace template

/-- Go `AddParseTree` with `associate` of `text/template`, as `Parse` uses
them: the tree is installed under the name, except that an empty tree does not
replace a template the set already holds. -/
def AddParseTree (L : Library) (s : TemplateSet L) (name : String) (tree : L.Tree) :
    TemplateSet L :=
  if (s name).isSome && L.IsEmptyTree tree then s
  else fun n => if n = name then some tree else s n

/-- The loop of `Parse` that adds the trees of a text to the set. -/
def addTrees (L : Library) (s : TemplateSet L) : List (String × L.Tree) → TemplateSet L
  | [] => s
  | (name, tree) :: rest => addTrees L (AddParseTree L s name tree) rest

end template

/-- The loop `for _, extension = range r.Exts` of the callback, on the
contents of `r.Templates` and the template set `t`. -/
def rangeExtsSet (L : Library) (r : Render L.host) (path : Path) (rp ext : String) :
    List String → Registry Ref × TemplateSet L → (Registry Ref × TemplateSet L) × Flow
  | [], st => (st, .next)
  | extension :: rest, st =>
    if ext = extension then
      match ioutil.ReadFile path with
      | .error e => (st, .panic e)
      | .ok buf =>
        let name := filepath.ToSlash L.host (stripExt rp ext)
        match L.Parse r.TemplateFuncMap name buf with
        | .error e => (st, .panic e)
        | .ok trees =>
          rangeExtsSet L r path rp ext rest
            (st.1.set name ⟨name⟩, template.addTrees L st.2 trees)
    else rangeExtsSet L r path rp ext rest st

/-- The callback of `Render.compile`, on the contents of `r.Templates` and the
template set `t`. -/
def walkFnSet (L : Library) (r : Render L.host) (path : Path) (perr : Option String)
    (st : Registry Ref × TemplateSet L) : (Registry Ref × TemplateSet L) × Flow :=
  match perr with
  | some e => (st, .fail e)
  | none =>
    match filepath.Rel L.host r.TemplatesDir path with
    | .error e => (st, .fail e)
    | .ok rp => rangeExtsSet L r path rp (getExt rp) r.Exts st

/-- Source `Render.compile` together with the template set `t` it parses into:
what `compile` does, and the trees `t` holds when the build ends. -/
def compileSet (L : Library) (r : Render L.host) (fs : Node) :
    Effect L.host Unit × TemplateSet L :=
  match L.Parse none r.TemplatesDir "SlothNinja" with
  | .error e => (⟨r.Templates, .panicked e⟩, fun _ => none)
  | .ok trees =>
    match filepath.Walk fs (walkFnSet L r)
        (r.Templates, template.addTrees L (fun _ => none) trees) with
    | (st, .panic e) => (⟨st.1, .panicked e⟩, st.2)
    | (st, _) => (⟨st.1, .returned ()⟩, st.2)

/-! ## Notions the statements use -/

/-- The path of an entry relative to the root, as `filepath.Rel` returns it. -/
def relPath (H : Host) (p : Path) : String :=
  match p.names with
  | [] => "."
  | n :: ns => strings.Join (n :: ns) H.Separator

/-- The name derived for an entry: its relative path with its extension
removed, slash-normalized. -/
def keyOf (H : Host) (p : Path) : String :=
  filepath.ToSlash H (stripExt (relPath H p) (getExt (relPath H p)))

/-- The extension of the entry is one of the configured extensions. -/
def Matched (H : Host) (r : Render H) (p : Path) : Prop :=
  getExt (relPath H p) ∈ r.Exts

instance (H : Host) (r : Render H) (p : Path) : Decidable (Matched H r p) := by
  unfold Matched; infer_instance

/-- The entry can be read and its contents parse as a template. -/
def readsAndParses (H : Host) (r : Render H) (p : Path) : Bool :=
  match ioutil.ReadFile p with
  | .error _ => false
  | .ok buf =>
    match H.Parse r.TemplateFuncMap (keyOf H p) buf with
    | .error _ => false
    | .ok _ => true

/-- The walk meets no file system error at the entry, and the entry, when it is
matched, can be read and parses. -/
def Clean (H : Host) (r : Render H) (p : Path) : Prop :=
  filepath.perrOf p.node = none ∧ (Matched H r p → readsAndParses H r p = true)

instance (H : Host) (r : Render H) (p : Path) : Decidable (Clean H r p) := by
  unfold Clean; infer_instance

/-- What one call of the callback does to the registry, case by case. -/
def register (H : Host) (r : Render H) (p : Path) (m : Registry H.Tmpl) :
    Registry H.Tmpl × Flow :=
  match filepath.perrOf p.node with
  | some e => (m, .fail e)
  | none =>
    if getExt (relPath H p) ∈ r.Exts then
      match ioutil.ReadFile p with
      | .error e => (m, .panic e)
      | .ok buf =>
        match H.Parse r.TemplateFuncMap (keyOf H p) buf with
        | .error e => (m, .panic e)
        | .ok t => (m.set (keyOf H p) t, .next)
    else (m, .next)

/-- The registry and the way the walk ends after the callback has run over the
entries `ps` in order. -/
def build (H : Host) (r : Render H) (ps : List Path) (m : Registry H.Tmpl) :
    Registry H.Tmpl × Flow :=
  filepath.runVisits (walkFn H r) ps m

/-- The registry `a` laid over the registry `m`: the entry of `a` where it has
one, the entry of `m` elsewhere. -/
def Registry.overlay {τ : Type} (a m : Registry τ) : Registry τ :=
  fun k => match a k with
    | some t => some t
    | none => m k

/-- The initial template `"SlothNinja"` parses. -/
def PlaceholderParses (H : Host) (r : Render H) : Prop :=
  ∃ t, H.Parse none r.TemplatesDir "SlothNinja" = .ok t

/-! ## Example hosts and trees -/

/-- A template pointer as the example hosts give it: the name and the text of
the call of `Parse` that returned it. -/
structure Parsed where
  name : String
  text : String
deriving DecidableEq, Repr

/-- The text holds the left delimiter of an action. -/
def hasAction : List Char → Bool
  | [] => false
  | [_] => false
  | a :: b :: rest => (a = '{' && b = '{') || hasAction (b :: rest)

/-- An example host with separator `sep`.  Its parser accepts the texts with no
action in them, as `html/template` does, and rejects every other text, as
`html/template` does the text of an action that is not closed. -/
@[reducible] def exampleHost (sep : Char) : Host where
  Tmpl := Parsed
  Funcs := Unit
  Separator := sep
  Parse := fun _ name text =>
    if hasAction text.data then .error "template: unclosed action" else .ok ⟨name, text⟩

/-- A readable file with the given contents. -/
def textFile (contents : String) : Node := .file (.ok contents)

/-- The tree with `index.html` and `partials/nav.html`. -/
def siteTree : Node :=
  .dir (.cons "index.html" (textFile "Hello")
    (.cons "partials" (.dir (.cons "nav.html" (textFile "<nav/>") .nil)) .nil))

/-- The example host of a system whose separator is the slash. -/
@[reducible] def posix : Host := exampleHost '/'

/-- The entry `index.html` of `siteTree`. -/
def indexPath : Path := ⟨["index.html"], textFile "Hello"⟩

/-- The entry `partials` of `siteTree`. -/
def partialsPath : Path := ⟨["partials"], .dir (.cons "nav.html" (textFile "<nav/>") .nil)⟩

/-- The entry `partials/nav.html` of `siteTree`. -/
def navPath : Path := ⟨["partials", "nav.html"], textFile "<nav/>"⟩

/-- A tree with the one file `page.tpl.html`. -/
def tplTree : Node := .dir (.cons "page.tpl.html" (textFile "P") .nil)

/-- The entry `page.tpl.html`. -/
def tplPath : Path := ⟨["page.tpl.html"], textFile "P"⟩

/-- A tree with `page.html` next to `page.tpl.html`. -/
def shadowTree : Node :=
  .dir (.cons "page.html" (textFile "X") (.cons "page.tpl.html" (textFile "P") .nil))

/-- A tree with `a.html` and `a.tpl`, which derive the same name. -/
def dupTree : Node :=
  .dir (.cons "a.html" (textFile "A") (.cons "a.tpl" (textFile "B") .nil))

/-- The entry `a.html` of `dupTree`. -/
def dupFirst : Path := ⟨["a.html"], textFile "A"⟩

/-- The entry `a.tpl` of `dupTree`. -/
def dupSecond : Path := ⟨["a.tpl"], textFile "B"⟩

/-- A tree whose second template, `b.html`, holds an action that is not closed. -/
def brokenTree : Node :=
  .dir (.cons "a.html" (textFile "ok") (.cons "b.html" (textFile "\x7b\x7b") .nil))

/-- The entry `a.html` of `brokenTree`. -/
def brokenFirst : Path := ⟨["a.html"], textFile "ok"⟩

/-- The entry `b.html` of `brokenTree`. -/
def brokenSecond : Path := ⟨["b.html"], textFile "\x7b\x7b"⟩

/-- A templates directory that does not exist. -/
def missingRoot : Node := .nostat "lstat app/views/: no such file or directory"

/-- A tree in which `m.html` cannot be reached by `os.Lstat`, between two
templates. -/
def gapTree : Node :=
  .dir (.cons "a.html" (textFile "A")
    (.cons "m.html" (.nostat "lstat app/views/m.html: permission denied")
      (.cons "z.html" (textFile "Z") .nil)))

/-- A tree with a directory named `emails.html`. -/
def mailTree : Node := .dir (.cons "emails.html" (.dir .nil) .nil)

/-- A tree with the file `README` in the directory `v1.0`. -/
def dottedDirTree : Node :=
  .dir (.cons "v1.0" (.dir (.cons "README" (textFile "docs") .nil)) .nil)

/-- The entry `v1.0/README` of `dottedDirTree`. -/
def readmePath : Path := ⟨["v1.0", "README"], textFile "docs"⟩

/-- A tree with an unreadable file `LICENSE`. -/
def licenseTree : Node := .dir (.cons "LICENSE" (.file (.error "permission denied")) .nil)

/-- The entry `LICENSE` of `licenseTree`. -/
def licensePath : Path := ⟨["LICENSE"], .file (.error "permission denied")⟩

/-- A tree with the one template `old.html`. -/
def oldTree : Node := .dir (.cons "old.html" (textFile "old") .nil)

/-- A tree with the one template `new.html`. -/
def newTree : Node := .dir (.cons "new.html" (textFile "new") .nil)

/-- The configuration of `New` with the extensions `exts`. -/
def withExts (H : Host) (exts : List String) : Render H := { New H with Exts := exts }

/-- The text of a block `define "name"` with the given body. -/
def defineBlock (name body : String) : String :=
  "\x7b\x7bdefine \"" ++ name ++ "\"\x7d\x7d" ++ body ++ "\x7b\x7bend\x7d\x7d"

/-- Where the scan of a text stands: in the text of the template itself, in
the name of a `define`, or in the body of the `define` of that name. -/
inductive ScanMode where
  | top
  | name (acc : List Char)
  | body (name : String) (acc : List Char)

/-- The scan of a text made of plain text and `define` blocks with plain
bodies: the text of the template itself and the blocks in order, or an error
for any other action.  `fuel` bounds the steps; a step reads a character. -/
def scanDefines : Nat → List Char → ScanMode → List Char → List (String × String) →
    Except String (String × List (String × String))
  | 0, _, _, _, _ => .error "template: text too long"
  | fuel + 1, s, mode, top, defs =>
    match mode, s with
    | .top, [] => .ok (String.mk top.reverse, defs.reverse)
    | .top, c :: rest =>
      if "\x7b\x7bdefine \"".data.isPrefixOf (c :: rest) then
        scanDefines fuel ((c :: rest).drop 10) (.name []) top defs
      else if "\x7b\x7b".data.isPrefixOf (c :: rest) then .error "template: unexpected action"
      else scanDefines fuel rest .top (c :: top) defs
    | .name _, [] => .error "template: unclosed define"
    | .name acc, c :: rest =>
      if "\"\x7d\x7d".data.isPrefixOf (c :: rest) then
        scanDefines fuel ((c :: rest).drop 3) (.body (String.mk acc.reverse) []) top defs
      else scanDefines fuel rest (.name (c :: acc)) top defs
    | .body _ _, [] => .error "template: unclosed define"
    | .body name acc, c :: rest =>
      if "\x7b\x7bend\x7d\x7d".data.isPrefixOf (c :: rest) then
        scanDefines fuel ((c :: rest).drop 7) .top top ((name, String.mk acc.reverse) :: defs)
      else if "\x7b\x7b".data.isPrefixOf (c :: rest) then .error "template: unexpected action"
      else scanDefines fuel rest (.body name (c :: acc)) top defs

/-- An example library with separator `sep`; a tree is the text of a template.
Its parser accepts plain text with `define` blocks of plain text in it, where
no name is defined twice, and gives the trees `html/template` gives for such a
text; it rejects every other text. -/
@[reducible] def exampleLibrary (sep : Char) : Library where
  Tree := String
  Funcs := Unit
  Separator := sep
  IsEmptyTree := fun tree => tree.data.all Char.isWhitespace
  Parse := fun _ name text =>
    match scanDefines (text.data.length + 1) text.data .top [] [] with
    | .error e => .error e
    | .ok (top, defs) =>
      if (name :: defs.map Prod.fst).Nodup then .ok ((name, top) :: defs)
      else .error "template: multiple definition of template"

/-- The example library of a system whose separator is the slash. -/
@[reducible] def posixLibrary : Library := exampleLibrary '/'

/-- A tree in which `b.html` defines the template `a`, next to `a.html`. -/
def defineTree : Node :=
  .dir (.cons "a.html" (textFile "A")
    (.cons "b.html" (textFile (defineBlock "a" "FROM_B" ++ "B")) .nil))

/-- The entry `b.html` of `defineTree`. -/
def defineSecond : Path := ⟨["b.html"], textFile (defineBlock "a" "FROM_B" ++ "B")⟩

/-! ## `getExt` -/

namespace strings

theorem indexChars_nonneg_or (s : List Char) (c : Char) :
    indexChars s c = -1 ∨ 0 ≤ indexChars s c := by
  induction s with
  | nil => left; rfl
  | cons x xs ih =>
    simp only [indexChars]
    split
    · right; exact le_refl _
    · split
      · left; rfl
      · right; rcases ih with h | h
        · contradiction
        · omega

theorem indexChars_eq_neg_one (s : List Char) (c : Char) :
    indexChars s c = -1 ↔ c ∉ s := by
  induction s with
  | nil => simp [indexChars]
  | cons x xs ih =>
    simp only [indexChars, List.mem_cons, not_or]
    by_cases hx : x = c
    · simp [hx]
    · have hx' : ¬ c = x := fun h => hx h.symm
      simp only [hx, if_false, hx', not_false_eq_true, true_and]
      rw [← ih]
      constructor
      · intro h
        by_contra h2
        simp only [h2, if_false] at h
        rcases indexChars_nonneg_or xs c with h3 | h3
        · exact h2 h3
        · omega
      · intro h; simp [h]

theorem splitChars_ne_nil (s : List Char) (c : Char) : splitChars s c ≠ [] := by
  induction s with
  | nil => simp [splitChars]
  | cons x xs ih =>
    simp only [splitChars]
    split
    · simp
    · split <;> simp

theorem joinChars_cons_cons (p : List Char) (ps : List (List Char)) (c : Char) (h : ps ≠ []) :
    joinChars (p :: ps) c = p ++ c :: joinChars ps c := by
  cases ps with
  | nil => exact absurd rfl h
  | cons q qs => rfl

theorem joinChars_splitChars (s : List Char) (c : Char) :
    joinChars (splitChars s c) c = s := by
  induction s with
  | nil => rfl
  | cons x xs ih =>
    simp only [splitChars]
    split
    · next h =>
      rw [joinChars_cons_cons _ _ _ (splitChars_ne_nil xs c), ih, h]; rfl
    · next h =>
      cases hs : splitChars xs c with
      | nil => exact absurd hs (splitChars_ne_nil xs c)
      | cons p ps =>
        rw [hs] at ih
        simp only
        cases ps with
        | nil => simp only [joinChars] at ih ⊢; rw [ih]
        | cons q qs =>
          simp only [joinChars] at ih ⊢
          rw [← ih]; rfl

theorem splitChars_tail (s : List Char) (c : Char) :
    c :: joinChars ((splitChars s c).drop 1) c = s.dropWhile (fun x => x != c) ∨ c ∉ s := by
  induction s with
  | nil => right; simp
  | cons x xs ih =>
    by_cases hx : x = c
    · left
      simp only [splitChars, hx, if_true, List.drop_succ_cons, List.drop_zero]
      rw [joinChars_splitChars]
      simp [List.dropWhile]
    · rcases ih with ih | ih
      · left
        simp only [splitChars, hx, if_false]
        cases hs : splitChars xs c with
        | nil => exact absurd hs (splitChars_ne_nil xs c)
        | cons p ps =>
          rw [hs] at ih
          simp only [List.drop_succ_cons, List.drop_zero] at ih ⊢
          rw [ih]
          have hb : (x != c) = true := by simp [hx]
          rw [List.dropWhile_cons, if_pos hb]
      · right
        simp only [List.mem_cons, not_or]
        exact ⟨fun h => hx h.symm, ih⟩

theorem head_dropWhile_of_mem (l : List Char) (c : Char) (h : c ∈ l) :
    (l.dropWhile (fun x => x != c)).head? = some c := by
  induction l with
  | nil => exact absurd h (List.not_mem_nil c)
  | cons x xs ih =>
    by_cases hx : x = c
    · have hb : ¬ (x != c) = true := by simp [hx]
      rw [List.dropWhile_cons, if_neg hb, hx]; rfl
    · have hb : (x != c) = true := by simp [hx]
      rw [List.dropWhile_cons, if_pos hb]
      apply ih
      rcases List.mem_cons.1 h with h1 | h1
      · exact absurd h1.symm hx
      · exact h1

end strings

theorem getExt_data (s : String) :
    (getExt s).data = s.data.dropWhile (fun x => x != '.') := by
  unfold getExt strings.Index strings.Split strings.Join
  by_cases h : '.' ∈ s.data
  · have hi : ¬ strings.indexChars s.data '.' = -1 := by
      rw [strings.indexChars_eq_neg_one]; exact fun hn => hn h
    rw [if_neg hi]
    rcases strings.splitChars_tail s.data '.' with ht | ht
    · rw [← ht]
      have hm : List.map String.data (List.drop 1 (List.map String.mk (strings.splitChars s.data '.')))
          = List.drop 1 (strings.splitChars s.data '.') := by
        rw [← List.map_drop, List.map_map]
        exact List.map_id _
      rw [String.data_append, hm]
      rfl
    · exact absurd h ht
  · have hi : strings.indexChars s.data '.' = -1 := by
      rw [strings.indexChars_eq_neg_one]; exact h
    rw [if_pos hi]
    symm
    rw [List.dropWhile_eq_nil_iff]
    intro x hx
    have : x ≠ '.' := fun hxe => h (hxe ▸ hx)
    simpa using this

theorem getExt_of_no_dot (s : String) (h : '.' ∉ s.data) : getExt s = "" := by
  apply String.ext
  rw [getExt_data, List.dropWhile_eq_nil_iff]
  intro x hx
  have : x ≠ '.' := fun hxe => h (hxe ▸ hx)
  simpa using this

/-- C6: `getExt s` is the suffix of `s` that starts at the first `.` of `s`,
so `s` is its dot-free beginning followed by `getExt s`; it is the empty string
exactly when `s` has no `.`, and begins with `.` otherwise.  It is the longest
dot-suffix, not the last segment: `getExt "a.b.html" = ".b.html"` and
`getExt "page.tpl.html" = ".tpl.html"`. -/
theorem getExt_longest_dot_suffix :
    (∀ s : String,
      getExt s = String.mk (s.data.dropWhile (fun x => x != '.')) ∧
      s = String.mk (s.data.takeWhile (fun x => x != '.')) ++ getExt s ∧
      '.' ∉ s.data.takeWhile (fun x => x != '.') ∧
      (getExt s = "" ↔ '.' ∉ s.data) ∧
      ('.' ∈ s.data → (getExt s).data.head? = some '.')) ∧
    getExt "a.b.html" = ".b.html" ∧ getExt "page.tpl.html" = ".tpl.html" ∧
    getExt "html" = "" := by
  refine ⟨fun s => ⟨?_, ?_, ?_, ?_, ?_⟩, by decide, by decide, by decide⟩
  · exact String.ext (getExt_data s)
  · apply String.ext
    rw [String.data_append, getExt_data]
    exact (List.takeWhile_append_dropWhile _ _).symm
  · intro h
    have := List.mem_takeWhile_imp h
    simp at this
  · constructor
    · intro h hm
      have hd := getExt_data s
      rw [h] at hd
      have hd2 : List.dropWhile (fun x => x != '.') s.data = [] := hd.symm
      rw [List.dropWhile_eq_nil_iff] at hd2
      have := hd2 _ hm
      simp at this
    · exact getExt_of_no_dot s
  · intro h
    rw [getExt_data]
    exact strings.head_dropWhile_of_mem s.data '.' h

/-! ## The walk as a run over the entries in order -/

namespace filepath

theorem runVisits_append {σ : Type} (walkFn : Path → Option String → σ → σ × Flow)
    (a b : List Path) (s : σ) :
    runVisits walkFn (a ++ b) s =
      match runVisits walkFn a s with
      | (s1, .next) => runVisits walkFn b s1
      | r => r := by
  induction a generalizing s with
  | nil => rfl
  | cons p ps ih =>
    simp only [List.cons_append, runVisits]
    rcases h : walkFn p (perrOf p.node) s with ⟨s1, f⟩
    cases f <;> simp [ih]

mutual
theorem walk_eq_runVisits {σ : Type} (walkFn : Path → Option String → σ → σ × Flow)
    (names : List String) (node : Node) (s : σ) :
    walk walkFn names node s = runVisits walkFn (visitsFrom names node) s := by
  cases node with
  | file rd =>
    simp only [walk, visitsFrom, runVisits, perrOf]
    rcases h : walkFn ⟨names, .file rd⟩ none s with ⟨s1, f⟩
    cases f <;> rfl
  | dir es =>
    simp only [walk, visitsFrom, runVisits, perrOf]
    rcases h : walkFn ⟨names, .dir es⟩ none s with ⟨s1, f⟩
    cases f
    · simp only [walkEntries_eq_runVisits walkFn names es s1]
    · rfl
    · rfl
  | baddir e =>
    simp only [walk, visitsFrom, runVisits, perrOf]
    rcases h : walkFn ⟨names, .baddir e⟩ (some e) s with ⟨s1, f⟩
    cases f <;> rfl
  | nostat e =>
    simp only [walk, visitsFrom, runVisits, perrOf]
    rcases h : walkFn ⟨names, .nostat e⟩ (some e) s with ⟨s1, f⟩
    cases f <;> rfl
theorem walkEntries_eq_runVisits {σ : Type} (walkFn : Path → Option String → σ → σ × Flow)
    (names : List String) (es : Entries) (s : σ) :
    walkEntries walkFn names es s = runVisits walkFn (visitsIn names es) s := by
  cases es with
  | nil => rfl
  | cons name node rest =>
    simp only [walkEntries, visitsIn, runVisits_append]
    rw [walk_eq_runVisits walkFn (names ++ [name]) node s]
    rcases h : runVisits walkFn (visitsFrom (names ++ [name]) node) s with ⟨s1, f⟩
    cases f
    · simp only [walkEntries_eq_runVisits walkFn names rest s1]
    · rfl
    · rfl
end

theorem Rel_eq (H : Host) (base : String) (p : Path) : Rel H base p = .ok (relPath H p) := by
  unfold Rel relPath
  cases p.names <;> rfl

end filepath

/-! ## One call of the callback -/

theorem Registry.set_set {τ : Type} (m : Registry τ) (k : String) (v : τ) :
    (m.set k v).set k v = m.set k v := by
  funext k1
  simp only [Registry.set]
  split <;> rfl

theorem rangeExts_of_not_mem (H : Host) (r : Render H) (p : Path) (rp ext : String)
    (exts : List String) (m : Registry H.Tmpl) (h : ext ∉ exts) :
    rangeExts H r p rp ext exts m = (m, .next) := by
  induction exts with
  | nil => rfl
  | cons x xs ih =>
    have hx : ¬ ext = x := fun e => h (e ▸ List.mem_cons_self _ _)
    have hxs : ext ∉ xs := fun e => h (List.mem_cons_of_mem _ e)
    simp only [rangeExts, if_neg hx]
    exact ih hxs

theorem rangeExts_after_set (H : Host) (r : Render H) (p : Path) (rp ext buf : String)
    (t : H.Tmpl) (hr : ioutil.ReadFile p = .ok buf)
    (hp : H.Parse r.TemplateFuncMap (filepath.ToSlash H (stripExt rp ext)) buf = .ok t)
    (exts : List String) (m : Registry H.Tmpl) :
    rangeExts H r p rp ext exts (m.set (filepath.ToSlash H (stripExt rp ext)) t)
      = (m.set (filepath.ToSlash H (stripExt rp ext)) t, .next) := by
  induction exts with
  | nil => rfl
  | cons x xs ih =>
    simp only [rangeExts]
    split
    · simp only [hr, hp, Registry.set_set]
      exact ih
    · exact ih

theorem rangeExts_of_mem (H : Host) (r : Render H) (p : Path) (rp ext : String)
    (exts : List String) (m : Registry H.Tmpl) (h : ext ∈ exts) :
    rangeExts H r p rp ext exts m =
      match ioutil.ReadFile p with
      | .error e => (m, .panic e)
      | .ok buf =>
        match H.Parse r.TemplateFuncMap (filepath.ToSlash H (stripExt rp ext)) buf with
        | .error e => (m, .panic e)
        | .ok t => (m.set (filepath.ToSlash H (stripExt rp ext)) t, .next) := by
  induction exts with
  | nil => exact absurd h (List.not_mem_nil _)
  | cons x xs ih =>
    simp only [rangeExts]
    by_cases hx : ext = x
    · rw [if_pos hx]
      cases hr : ioutil.ReadFile p with
      | error e => rfl
      | ok buf =>
        simp only
        cases hp : H.Parse r.TemplateFuncMap (filepath.ToSlash H (stripExt rp ext)) buf with
        | error e => rfl
        | ok t =>
          simp only
          exact rangeExts_after_set H r p rp ext buf t hr hp xs m
    · rw [if_neg hx]
      rcases List.mem_cons.1 h with h1 | h1
      · exact absurd h1 hx
      · exact ih h1

theorem walkFn_eq_register (H : Host) (r : Render H) (p : Path) (m : Registry H.Tmpl) :
    walkFn H r p (filepath.perrOf p.node) m = register H r p m := by
  unfold walkFn register
  cases filepath.perrOf p.node with
  | some e => rfl
  | none =>
    simp only [filepath.Rel_eq]
    by_cases h : getExt (relPath H p) ∈ r.Exts
    · rw [if_pos h, rangeExts_of_mem H r p _ _ _ m h]
      rfl
    · rw [if_neg h, rangeExts_of_not_mem H r p _ _ _ m h]

theorem build_nil (H : Host) (r : Render H) (m : Registry H.Tmpl) :
    build H r [] m = (m, .next) := rfl

theorem build_cons (H : Host) (r : Render H) (p : Path) (ps : List Path)
    (m : Registry H.Tmpl) :
    build H r (p :: ps) m =
      match register H r p m with
      | (m1, .next) => build H r ps m1
      | x => x := by
  simp only [build, filepath.runVisits, walkFn_eq_register]
  rcases register H r p m with ⟨m1, f⟩
  cases f <;> rfl

theorem build_append (H : Host) (r : Render H) (a b : List Path) (m : Registry H.Tmpl) :
    build H r (a ++ b) m =
      match build H r a m with
      | (m1, .next) => build H r b m1
      | x => x := by
  have h := filepath.runVisits_append (walkFn H r) a b m
  simp only [build]
  rw [h]
  rcases filepath.runVisits (walkFn H r) a m with ⟨m1, f⟩
  cases f <;> rfl

theorem compile_eq_build (H : Host) (r : Render H) (fs : Node) :
    compile H r fs =
      match H.Parse none r.TemplatesDir "SlothNinja" with
      | .error e => ⟨r.Templates, .panicked e⟩
      | .ok _ =>
        match build H r (filepath.visits fs) r.Templates with
        | (m, .panic e) => ⟨m, .panicked e⟩
        | (m, _) => ⟨m, .returned ()⟩ := by
  simp only [compile, filepath.Walk, filepath.walk_eq_runVisits, build, filepath.visits]

theorem Init_Templates (H : Host) (r : Render H) (fs : Node) :
    (Init H r fs).Templates = (compile H r fs).Templates := by
  unfold Init
  rcases compile H r fs with ⟨m, o⟩
  cases o <;> rfl

/-! ## The build as a whole -/

theorem Registry.overlay_set {τ : Type} (a m : Registry τ) (k : String) (v : τ) :
    Registry.overlay (a.set k v) m = (Registry.overlay a m).set k v := by
  funext k1
  simp only [Registry.overlay, Registry.set]
  by_cases hk : k1 = k
  · simp only [if_pos hk]
  · simp only [if_neg hk]

theorem Registry.overlay_empty {τ : Type} (m : Registry τ) :
    Registry.overlay Registry.empty m = m := rfl

theorem Registry.overlay_idem {τ : Type} (a m : Registry τ) :
    Registry.overlay a (Registry.overlay a m) = Registry.overlay a m := by
  funext k
  simp only [Registry.overlay]
  cases a k <;> rfl

theorem Registry.hasKey_overlay_right {τ : Type} (a m : Registry τ) (k : String)
    (h : m.HasKey k) : (Registry.overlay a m).HasKey k := by
  simp only [Registry.HasKey, Registry.overlay] at h ⊢
  cases a k with
  | none => exact h
  | some t => rfl

theorem register_overlay (H : Host) (r : Render H) (p : Path) (a m : Registry H.Tmpl) :
    register H r p (Registry.overlay a m)
      = (Registry.overlay (register H r p a).1 m, (register H r p a).2) := by
  unfold register
  cases filepath.perrOf p.node with
  | some e => rfl
  | none =>
    simp only
    split
    · cases ioutil.ReadFile p with
      | error e => rfl
      | ok buf =>
        simp only
        cases H.Parse r.TemplateFuncMap (keyOf H p) buf with
        | error e => rfl
        | ok t => simp only [Registry.overlay_set]
    · rfl

theorem build_overlay (H : Host) (r : Render H) (ps : List Path) (a m : Registry H.Tmpl) :
    build H r ps (Registry.overlay a m)
      = (Registry.overlay (build H r ps a).1 m, (build H r ps a).2) := by
  induction ps generalizing a with
  | nil => rfl
  | cons p ps ih =>
    rw [build_cons, build_cons, register_overlay]
    rcases register H r p a with ⟨a1, f⟩
    cases f
    · exact ih a1
    · rfl
    · rfl

theorem build_from (H : Host) (r : Render H) (ps : List Path) (m : Registry H.Tmpl) :
    build H r ps m
      = (Registry.overlay (build H r ps Registry.empty).1 m,
          (build H r ps Registry.empty).2) := by
  have h := build_overlay H r ps Registry.empty m
  rwa [Registry.overlay_empty] at h

theorem build_config (H : Host) (r : Render H) (m0 : Registry H.Tmpl) (ps : List Path)
    (m : Registry H.Tmpl) :
    build H { r with Templates := m0 } ps m = build H r ps m := by
  induction ps generalizing m with
  | nil => rfl
  | cons p ps ih =>
    rw [build_cons, build_cons]
    have hr : register H { r with Templates := m0 } p m = register H r p m := rfl
    rw [hr]
    rcases register H r p m with ⟨m1, f⟩
    cases f
    · exact ih m1
    · rfl
    · rfl

/-- What `compile` leaves in the registry and how it ends, read off the build
from the empty registry. -/
theorem compile_from (H : Host) (r : Render H) (m : Registry H.Tmpl) (fs : Node) :
    (compile H { r with Templates := m } fs).Templates
        = Registry.overlay (compile H { r with Templates := Registry.empty } fs).Templates m ∧
      (compile H { r with Templates := m } fs).outcome
        = (compile H { r with Templates := Registry.empty } fs).outcome := by
  rw [compile_eq_build, compile_eq_build]
  simp only [build_config]
  cases H.Parse none r.TemplatesDir "SlothNinja" with
  | error e => exact ⟨rfl, rfl⟩
  | ok t =>
    simp only
    rw [build_from H r (filepath.visits fs) m]
    rcases build H r (filepath.visits fs) Registry.empty with ⟨a, f⟩
    cases f <;> exact ⟨rfl, rfl⟩

theorem register_mono (H : Host) (r : Render H) (p : Path) (m : Registry H.Tmpl) (k : String)
    (h : m.HasKey k) : (register H r p m).1.HasKey k := by
  unfold register
  cases filepath.perrOf p.node with
  | some e => exact h
  | none =>
    simp only
    split
    · cases ioutil.ReadFile p with
      | error e => exact h
      | ok buf =>
        simp only
        cases H.Parse r.TemplateFuncMap (keyOf H p) buf with
        | error e => exact h
        | ok t =>
          simp only [Registry.HasKey, Registry.set] at h ⊢
          split
          · rfl
          · exact h
    · exact h

theorem build_mono (H : Host) (r : Render H) (ps : List Path) (m : Registry H.Tmpl)
    (k : String) (h : m.HasKey k) : (build H r ps m).1.HasKey k := by
  induction ps generalizing m with
  | nil => exact h
  | cons p ps ih =>
    rw [build_cons]
    have h1 := register_mono H r p m k h
    rcases hr : register H r p m with ⟨m1, f⟩
    rw [hr] at h1
    cases f
    · exact ih m1 h1
    · exact h1
    · exact h1

theorem register_lookup_ne (H : Host) (r : Render H) (p : Path) (m : Registry H.Tmpl)
    (k : String) (h : Matched H r p → keyOf H p ≠ k) : (register H r p m).1 k = m k := by
  unfold register
  cases filepath.perrOf p.node with
  | some e => rfl
  | none =>
    simp only
    split
    · next hm =>
      cases ioutil.ReadFile p with
      | error e => rfl
      | ok buf =>
        simp only
        cases H.Parse r.TemplateFuncMap (keyOf H p) buf with
        | error e => rfl
        | ok t =>
          simp only [Registry.set]
          have hk : ¬ k = keyOf H p := fun e => h hm e.symm
          rw [if_neg hk]
    · rfl

theorem build_lookup_ne (H : Host) (r : Render H) (ps : List Path) (m : Registry H.Tmpl)
    (k : String) (h : ∀ p ∈ ps, Matched H r p → keyOf H p ≠ k) :
    (build H r ps m).1 k = m k := by
  induction ps generalizing m with
  | nil => rfl
  | cons p ps ih =>
    rw [build_cons]
    have h1 := register_lookup_ne H r p m k (h p (List.mem_cons_self _ _))
    have h2 := fun m1 => ih m1 (fun q hq => h q (List.mem_cons_of_mem _ hq))
    rcases hr : register H r p m with ⟨m1, f⟩
    rw [hr] at h1
    cases f
    · simp only; rw [h2 m1]; exact h1
    · exact h1
    · exact h1

theorem build_key_origin (H : Host) (r : Render H) (ps : List Path) (m : Registry H.Tmpl)
    (k : String) (h : (build H r ps m).1.HasKey k) :
    m.HasKey k ∨ ∃ p ∈ ps, Matched H r p ∧ keyOf H p = k := by
  by_cases hex : ∃ p ∈ ps, Matched H r p ∧ keyOf H p = k
  · exact Or.inr hex
  · left
    have hne : ∀ p ∈ ps, Matched H r p → keyOf H p ≠ k :=
      fun p hp hm hk => hex ⟨p, hp, hm, hk⟩
    have := build_lookup_ne H r ps m k hne
    simp only [Registry.HasKey] at h ⊢
    rwa [this] at h

theorem register_clean (H : Host) (r : Render H) (p : Path) (m : Registry H.Tmpl)
    (h : Clean H r p) :
    (Matched H r p → ∃ buf t, ioutil.ReadFile p = .ok buf ∧
        H.Parse r.TemplateFuncMap (keyOf H p) buf = .ok t ∧
        register H r p m = (m.set (keyOf H p) t, .next)) ∧
      (¬ Matched H r p → register H r p m = (m, .next)) := by
  rcases h with ⟨hperr, hrp⟩
  unfold register
  rw [hperr]
  constructor
  · intro hm
    have hq := hrp hm
    unfold readsAndParses at hq
    have hm1 : getExt (relPath H p) ∈ r.Exts := hm
    simp only [if_pos hm1]
    cases hrd : ioutil.ReadFile p with
    | error e => rw [hrd] at hq; exact absurd hq (by simp)
    | ok buf =>
      rw [hrd] at hq
      simp only at hq ⊢
      cases hp : H.Parse r.TemplateFuncMap (keyOf H p) buf with
      | error e => rw [hp] at hq; exact absurd hq (by simp)
      | ok t => exact ⟨buf, t, rfl, hp, rfl⟩
  · intro hm
    have hm1 : ¬ getExt (relPath H p) ∈ r.Exts := hm
    simp only [if_neg hm1]

theorem build_clean (H : Host) (r : Render H) (ps : List Path) (m : Registry H.Tmpl)
    (h : ∀ p ∈ ps, Clean H r p) : (build H r ps m).2 = .next := by
  induction ps generalizing m with
  | nil => rfl
  | cons p ps ih =>
    rw [build_cons]
    have hc := register_clean H r p m (h p (List.mem_cons_self _ _))
    have h2 := fun m1 => ih m1 (fun q hq => h q (List.mem_cons_of_mem _ hq))
    by_cases hm : Matched H r p
    · obtain ⟨buf, t, _, _, hreg⟩ := hc.1 hm
      rw [hreg]; exact h2 _
    · rw [hc.2 hm]; exact h2 _

theorem build_clean_lookup (H : Host) (r : Render H) (ps : List Path) (m : Registry H.Tmpl)
    (k : String) (h : ∀ p ∈ ps, Clean H r p)
    (hex : ∃ p ∈ ps, Matched H r p ∧ keyOf H p = k) :
    ∃ w ∈ ps, Matched H r w ∧ keyOf H w = k ∧ ∃ buf t, ioutil.ReadFile w = .ok buf ∧
      H.Parse r.TemplateFuncMap k buf = .ok t ∧ (build H r ps m).1 k = some t := by
  induction ps generalizing m with
  | nil =>
    obtain ⟨p, hp, _⟩ := hex
    exact absurd hp (List.not_mem_nil p)
  | cons p ps ih =>
    have hc := register_clean H r p m (h p (List.mem_cons_self _ _))
    have hps : ∀ q ∈ ps, Clean H r q := fun q hq => h q (List.mem_cons_of_mem _ hq)
    have hnext : ∃ m1, register H r p m = (m1, .next) := by
      by_cases hm : Matched H r p
      · obtain ⟨buf, t, _, _, hreg⟩ := hc.1 hm
        exact ⟨_, hreg⟩
      · exact ⟨_, hc.2 hm⟩
    obtain ⟨m1, hm1⟩ := hnext
    have hb : build H r (p :: ps) m = build H r ps m1 := by
      rw [build_cons, hm1]
    by_cases hlater : ∃ q ∈ ps, Matched H r q ∧ keyOf H q = k
    · obtain ⟨w, hw, hmw, hkw, buf, t, hrd, hpa, hlk⟩ := ih m1 hps hlater
      exact ⟨w, List.mem_cons_of_mem _ hw, hmw, hkw, buf, t, hrd, hpa, by rw [hb]; exact hlk⟩
    · obtain ⟨q, hq, hmq, hkq⟩ := hex
      rcases List.mem_cons.1 hq with hqp | hqp
      · subst hqp
        obtain ⟨buf, t, hrd, hpa, hreg⟩ := hc.1 hmq
        rw [hm1] at hreg
        have hm1eq : m1 = m.set (keyOf H q) t := congrArg Prod.fst hreg
        have hne : ∀ w ∈ ps, Matched H r w → keyOf H w ≠ k :=
          fun w hw hmw hkw => hlater ⟨w, hw, hmw, hkw⟩
        refine ⟨q, List.mem_cons_self _ _, hmq, hkq, buf, t, hrd, hkq ▸ hpa, ?_⟩
        rw [hb, build_lookup_ne H r ps m1 k hne, hm1eq, ← hkq]
        simp [Registry.set]
      · exact absurd ⟨q, hqp, hmq, hkq⟩ hlater

theorem Init_of_returned (H : Host) (r : Render H) (fs : Node)
    (h : (compile H r fs).outcome = .returned ()) :
    (Init H r fs).outcome = .returned { r with Templates := (compile H r fs).Templates } := by
  unfold Init
  rcases hc : compile H r fs with ⟨m, o⟩
  rw [hc] at h
  cases o with
  | returned u => rfl
  | panicked e => cases h

theorem Init_of_panicked (H : Host) (r : Render H) (fs : Node) (e : String)
    (h : (compile H r fs).outcome = .panicked e) :
    (Init H r fs).outcome = .panicked e := by
  unfold Init
  rcases hc : compile H r fs with ⟨m, o⟩
  rw [hc] at h
  cases o with
  | returned u => cases h
  | panicked e1 =>
    simp only at h ⊢
    exact congrArg _ (Outcome.panicked.inj h)

theorem compile_of_build_next (H : Host) (r : Render H) (fs : Node)
    (hph : PlaceholderParses H r)
    (h : (build H r (filepath.visits fs) r.Templates).2 = .next) :
    compile H r fs = ⟨(build H r (filepath.visits fs) r.Templates).1, .returned ()⟩ := by
  obtain ⟨t, ht⟩ := hph
  rw [compile_eq_build, ht]
  rcases hb : build H r (filepath.visits fs) r.Templates with ⟨m, f⟩
  rw [hb] at h
  simp only at h
  subst h
  rfl

theorem compile_of_build_panic (H : Host) (r : Render H) (fs : Node)
    (hph : PlaceholderParses H r) (e : String)
    (h : (build H r (filepath.visits fs) r.Templates).2 = .panic e) :
    compile H r fs = ⟨(build H r (filepath.visits fs) r.Templates).1, .panicked e⟩ := by
  obtain ⟨t, ht⟩ := hph
  rw [compile_eq_build, ht]
  rcases hb : build H r (filepath.visits fs) r.Templates with ⟨m, f⟩
  rw [hb] at h
  simp only at h
  subst h
  rfl

/-! ## The template set of a build -/

theorem rangeExtsSet_registry (L : Library) (r : Render L.host) (p : Path) (rp ext : String)
    (exts : List String) (st : Registry Ref × TemplateSet L) :
    ((rangeExtsSet L r p rp ext exts st).1.1, (rangeExtsSet L r p rp ext exts st).2)
      = rangeExts L.host r p rp ext exts st.1 := by
  induction exts generalizing st with
  | nil => rfl
  | cons x xs ih =>
    simp only [rangeExtsSet, rangeExts]
    by_cases hx : ext = x
    · simp only [if_pos hx]
      cases ioutil.ReadFile p with
      | error e => rfl
      | ok buf =>
        simp only
        cases hp : L.Parse r.TemplateFuncMap (filepath.ToSlash L.host (stripExt rp ext)) buf with
        | error e => rfl
        | ok trees => exact ih _
    · simp only [if_neg hx]
      exact ih st

theorem walkFnSet_registry (L : Library) (r : Render L.host) (p : Path) (perr : Option String)
    (st : Registry Ref × TemplateSet L) :
    ((walkFnSet L r p perr st).1.1, (walkFnSet L r p perr st).2)
      = walkFn L.host r p perr st.1 := by
  unfold walkFnSet walkFn
  cases perr with
  | some e => rfl
  | none =>
    simp only [filepath.Rel_eq]
    exact rangeExtsSet_registry L r p _ _ _ st

theorem runVisits_registry (L : Library) (r : Render L.host) (ps : List Path)
    (st : Registry Ref × TemplateSet L) :
    ((filepath.runVisits (walkFnSet L r) ps st).1.1, (filepath.runVisits (walkFnSet L r) ps st).2)
      = build L.host r ps st.1 := by
  induction ps generalizing st with
  | nil => rfl
  | cons p ps ih =>
    have h := walkFnSet_registry L r p (filepath.perrOf p.node) st
    simp only [build, filepath.runVisits] at ih ⊢
    rcases hf : walkFnSet L r p (filepath.perrOf p.node) st with ⟨st1, f⟩
    rw [hf] at h
    simp only at h
    rw [← h]
    cases f
    · exact ih st1
    · rfl
    · rfl

/-- The registry and the outcome `compileSet` gives are those of `compile`. -/
theorem compileSet_fst (L : Library) (r : Render L.host) (fs : Node) :
    (compileSet L r fs).1 = compile L.host r fs := by
  rw [compile_eq_build]
  unfold compileSet
  cases hp : L.Parse none r.TemplatesDir "SlothNinja" with
  | error e =>
    have hh : L.host.Parse none r.TemplatesDir "SlothNinja" = .error e := by
      simp only [Library.host, hp]
    rw [hh]
  | ok trees =>
    have hh : L.host.Parse none r.TemplatesDir "SlothNinja" = .ok ⟨r.TemplatesDir⟩ := by
      simp only [Library.host, hp]
    rw [hh]
    simp only [filepath.Walk, filepath.walk_eq_runVisits]
    have h := runVisits_registry L r (filepath.visitsFrom [] fs)
      (r.Templates, template.addTrees L (fun _ => none) trees)
    simp only [filepath.visits]
    rcases hf : filepath.runVisits (walkFnSet L r) (filepath.visitsFrom [] fs)
      (r.Templates, template.addTrees L (fun _ => none) trees) with ⟨st1, f⟩
    rw [hf] at h
    simp only at h
    rw [← h]
    cases f <;> rfl

theorem compileSet_snd (L : Library) (r : Render L.host) (fs : Node)
    (trees : List (String × L.Tree)) (hp : L.Parse none r.TemplatesDir "SlothNinja" = .ok trees) :
    (compileSet L r fs).2
      = (filepath.runVisits (walkFnSet L r) (filepath.visits fs)
          (r.Templates, template.addTrees L (fun _ => none) trees)).1.2 := by
  unfold compileSet
  simp only [hp, filepath.Walk, filepath.walk_eq_runVisits, filepath.visits]
  rcases filepath.runVisits (walkFnSet L r) (filepath.visitsFrom [] fs)
    (r.Templates, template.addTrees L (fun _ => none) trees) with ⟨st1, f⟩
  cases f <;> rfl

namespace template

theorem AddParseTree_other (L : Library) (s : TemplateSet L) (name k : String) (tree : L.Tree)
    (h : name ≠ k) : AddParseTree L s name tree k = s k := by
  unfold AddParseTree
  split
  · rfl
  · have hk : ¬ k = name := fun e => h e.symm
    simp only [if_neg hk]

theorem AddParseTree_self (L : Library) (s : TemplateSet L) (k : String) (tree : L.Tree)
    (h : L.IsEmptyTree tree = false) : AddParseTree L s k tree k = some tree := by
  unfold AddParseTree
  simp [h]

theorem addTrees_other (L : Library) (s : TemplateSet L) (trees : List (String × L.Tree))
    (k : String) (h : ∀ t, (k, t) ∉ trees) : addTrees L s trees k = s k := by
  induction trees generalizing s with
  | nil => rfl
  | cons nt rest ih =>
    rcases nt with ⟨n, t⟩
    simp only [addTrees]
    rw [ih _ (fun t1 h1 => h t1 (List.mem_cons_of_mem _ h1))]
    apply AddParseTree_other
    intro hn
    exact h t (hn ▸ List.mem_cons_self _ _)

theorem addTrees_at (L : Library) (s : TemplateSet L) (trees : List (String × L.Tree))
    (k : String) (tr : L.Tree) (hmem : (k, tr) ∈ trees)
    (huniq : ∀ t, (k, t) ∈ trees → t = tr) (hne : L.IsEmptyTree tr = false) :
    addTrees L s trees k = some tr := by
  induction trees generalizing s with
  | nil => exact absurd hmem (List.not_mem_nil _)
  | cons nt rest ih =>
    rcases nt with ⟨n, t⟩
    simp only [addTrees]
    by_cases hr : (k, tr) ∈ rest
    · exact ih _ hr (fun t1 h1 => huniq t1 (List.mem_cons_of_mem _ h1))
    · have hhead : (k, tr) = (n, t) := by
        rcases List.mem_cons.1 hmem with h1 | h1
        · exact h1
        · exact absurd h1 hr
      have hn : n = k := (Prod.mk.inj hhead).1.symm
      have ht : t = tr := (Prod.mk.inj hhead).2.symm
      subst hn; subst ht
      have hnone : ∀ t1, (n, t1) ∉ rest := by
        intro t1 h1
        have := huniq t1 (List.mem_cons_of_mem _ h1)
        subst this
        exact hr h1
      rw [addTrees_other L _ rest n hnone]
      exact AddParseTree_self L s n t hne

end template

theorem rangeExtsSet_of_not_mem (L : Library) (r : Render L.host) (p : Path) (rp ext : String)
    (exts : List String) (st : Registry Ref × TemplateSet L) (h : ext ∉ exts) :
    rangeExtsSet L r p rp ext exts st = (st, .next) := by
  induction exts with
  | nil => rfl
  | cons x xs ih =>
    have hx : ¬ ext = x := fun e => h (e ▸ List.mem_cons_self _ _)
    have hxs : ext ∉ xs := fun e => h (List.mem_cons_of_mem _ e)
    simp only [rangeExtsSet, if_neg hx]
    exact ih hxs

theorem rangeExtsSet_other (L : Library) (r : Render L.host) (p : Path) (rp ext : String)
    (exts : List String) (st : Registry Ref × TemplateSet L) (k : String)
    (h : ∀ buf trees, ioutil.ReadFile p = .ok buf →
      L.Parse r.TemplateFuncMap (filepath.ToSlash L.host (stripExt rp ext)) buf = .ok trees →
      ∀ t, (k, t) ∉ trees) :
    (rangeExtsSet L r p rp ext exts st).1.2 k = st.2 k := by
  induction exts generalizing st with
  | nil => rfl
  | cons x xs ih =>
    simp only [rangeExtsSet]
    by_cases hx : ext = x
    · simp only [if_pos hx]
      cases hr : ioutil.ReadFile p with
      | error e => rfl
      | ok buf =>
        simp only
        cases hp : L.Parse r.TemplateFuncMap (filepath.ToSlash L.host (stripExt rp ext)) buf with
        | error e => rfl
        | ok trees =>
          simp only
          rw [ih _]
          exact template.addTrees_other L st.2 trees k (h buf trees hr hp)
    · simp only [if_neg hx]
      exact ih st

theorem rangeExtsSet_at (L : Library) (r : Render L.host) (p : Path) (rp ext buf : String)
    (trees : List (String × L.Tree)) (k : String) (tr : L.Tree)
    (hr : ioutil.ReadFile p = .ok buf)
    (hp : L.Parse r.TemplateFuncMap (filepath.ToSlash L.host (stripExt rp ext)) buf = .ok trees)
    (hmem : (k, tr) ∈ trees) (huniq : ∀ t, (k, t) ∈ trees → t = tr)
    (hne : L.IsEmptyTree tr = false)
    (exts : List String) (st : Registry Ref × TemplateSet L)
    (h : ext ∈ exts ∨ st.2 k = some tr) :
    (rangeExtsSet L r p rp ext exts st).1.2 k = some tr := by
  induction exts generalizing st with
  | nil =>
    rcases h with h | h
    · exact absurd h (List.not_mem_nil _)
    · exact h
  | cons x xs ih =>
    simp only [rangeExtsSet]
    by_cases hx : ext = x
    · simp only [if_pos hx, hr, hp]
      apply ih
      right
      exact template.addTrees_at L st.2 trees k tr hmem huniq hne
    · simp only [if_neg hx]
      apply ih
      rcases h with h | h
      · rcases List.mem_cons.1 h with h1 | h1
        · exact absurd h1 hx
        · exact Or.inl h1
      · exact Or.inr h

theorem walkFnSet_other (L : Library) (r : Render L.host) (p : Path)
    (st : Registry Ref × TemplateSet L) (k : String)
    (h : Matched L.host r p → ∀ buf trees, ioutil.ReadFile p = .ok buf →
      L.Parse r.TemplateFuncMap (keyOf L.host p) buf = .ok trees → ∀ t, (k, t) ∉ trees) :
    (walkFnSet L r p (filepath.perrOf p.node) st).1.2 k = st.2 k := by
  unfold walkFnSet
  cases filepath.perrOf p.node with
  | some e => rfl
  | none =>
    simp only [filepath.Rel_eq]
    by_cases hm : Matched L.host r p
    · exact rangeExtsSet_other L r p _ _ _ st k (h hm)
    · rw [rangeExtsSet_of_not_mem L r p _ _ _ st hm]

theorem runVisits_set_other (L : Library) (r : Render L.host) (ps : List Path)
    (st : Registry Ref × TemplateSet L) (k : String)
    (h : ∀ p ∈ ps, Matched L.host r p → ∀ buf trees, ioutil.ReadFile p = .ok buf →
      L.Parse r.TemplateFuncMap (keyOf L.host p) buf = .ok trees → ∀ t, (k, t) ∉ trees) :
    (filepath.runVisits (walkFnSet L r) ps st).1.2 k = st.2 k := by
  induction ps generalizing st with
  | nil => rfl
  | cons p ps ih =>
    have h1 := walkFnSet_other L r p st k (h p (List.mem_cons_self _ _))
    have h2 := fun st1 => ih st1 (fun q hq => h q (List.mem_cons_of_mem _ hq))
    simp only [filepath.runVisits]
    rcases hf : walkFnSet L r p (filepath.perrOf p.node) st with ⟨st1, f⟩
    rw [hf] at h1
    cases f
    · simp only; rw [h2 st1]; exact h1
    · exact h1
    · exact h1

theorem runVisits_set_flow (L : Library) (r : Render L.host) (ps : List Path)
    (st : Registry Ref × TemplateSet L) (h : ∀ p ∈ ps, Clean L.host r p) :
    (filepath.runVisits (walkFnSet L r) ps st).2 = .next := by
  have h1 := runVisits_registry L r ps st
  have h2 := build_clean L.host r ps st.1 h
  rw [← h1] at h2
  exact h2

theorem host_Parse_ok (L : Library) (funcs : Option L.Funcs) (name text : String) (t : Ref)
    (h : L.host.Parse funcs name text = .ok t) :
    t = ⟨name⟩ ∧ ∃ trees, L.Parse funcs name text = .ok trees := by
  simp only [Library.host] at h
  cases hp : L.Parse funcs name text with
  | error e => rw [hp] at h; cases h
  | ok trees =>
    rw [hp] at h
    exact ⟨(Except.ok.inj h).symm, trees, rfl⟩

/-! ## Registration of the matched files -/

/-- C1, amended: in a tree where the walk meets no file system error and every
matched entry can be read and parses, the build returns and the registry holds,
for every entry whose extension is configured, the key derived from it (its
relative path without the extension, slash-normalized).  The entry under that
key is the template of that name in the one template set all files of the
build are parsed into.  The tree that template holds when the build ends is
the tree the contents of the file give for that name, provided this tree is
not empty and no matched entry visited later gives a tree for the same name,
be it a later file that derives the same key or a `define` of that name in a
later file. -/
theorem compile_registers_matched (L : Library) (r : Render L.host) (fs : Node)
    (hph : PlaceholderParses L.host r)
    (hclean : ∀ p ∈ filepath.visits fs, Clean L.host r p)
    (pre : List Path) (v : Path) (post : List Path)
    (hv : filepath.visits fs = pre ++ v :: post) (hm : Matched L.host r v) :
    (compileSet L r fs).1 = compile L.host r fs ∧
    (compile L.host r fs).outcome = .returned () ∧
    (Init L.host r fs).outcome
      = .returned { r with Templates := (compile L.host r fs).Templates } ∧
    (compile L.host r fs).Templates.HasKey (keyOf L.host v) ∧
    (compile L.host r fs).Templates (keyOf L.host v) = some ⟨keyOf L.host v⟩ ∧
    ∃ buf trees, ioutil.ReadFile v = .ok buf ∧
      L.Parse r.TemplateFuncMap (keyOf L.host v) buf = .ok trees ∧
      ∀ tr, (keyOf L.host v, tr) ∈ trees →
        (∀ t, (keyOf L.host v, t) ∈ trees → t = tr) →
        L.IsEmptyTree tr = false →
        (∀ w ∈ post, Matched L.host r w → ∀ buf1 trees1, ioutil.ReadFile w = .ok buf1 →
          L.Parse r.TemplateFuncMap (keyOf L.host w) buf1 = .ok trees1 →
          ∀ t, (keyOf L.host v, t) ∉ trees1) →
        Ref.tree (compileSet L r fs).2 ⟨keyOf L.host v⟩ = some tr := by
  have hnext := build_clean L.host r (filepath.visits fs) r.Templates hclean
  have hc := compile_of_build_next L.host r fs hph hnext
  have hout : (compile L.host r fs).outcome = .returned () := by rw [hc]
  have hT : (compile L.host r fs).Templates
      = (build L.host r (filepath.visits fs) r.Templates).1 := by rw [hc]
  have hlook := build_clean_lookup L.host r (filepath.visits fs) r.Templates (keyOf L.host v)
    hclean ⟨v, by rw [hv]; exact List.mem_append_right _ (List.mem_cons_self _ _), hm, rfl⟩
  obtain ⟨w, _, _, _, bufw, tw, _, hpw, hlk⟩ := hlook
  have htw := (host_Parse_ok L _ _ _ tw hpw).1
  have hval : (compile L.host r fs).Templates (keyOf L.host v) = some ⟨keyOf L.host v⟩ := by
    rw [hT, hlk, htw]
  have hcv : Clean L.host r v :=
    hclean v (by rw [hv]; exact List.mem_append_right _ (List.mem_cons_self _ _))
  have hpre : ∀ p ∈ pre, Clean L.host r p := fun p hp =>
    hclean p (by rw [hv]; exact List.mem_append_left _ hp)
  obtain ⟨buf, t, hrd, hpa, _⟩ := (register_clean L.host r v r.Templates hcv).1 hm
  obtain ⟨_, trees, hptrees⟩ := host_Parse_ok L _ _ _ t hpa
  refine ⟨compileSet_fst L r fs, hout, Init_of_returned L.host r fs hout, ?_, hval,
    buf, trees, hrd, hptrees, ?_⟩
  · simp [Registry.HasKey, hval]
  · intro tr hmem huniq hne hpost
    obtain ⟨t0, ht0⟩ := hph
    obtain ⟨_, trees0, hp0⟩ := host_Parse_ok L _ _ _ t0 ht0
    rw [Ref.tree, compileSet_snd L r fs trees0 hp0, hv, filepath.runVisits_append]
    have hflow := runVisits_set_flow L r pre
      (r.Templates, template.addTrees L (fun _ => none) trees0) hpre
    rcases hf : filepath.runVisits (walkFnSet L r) pre
      (r.Templates, template.addTrees L (fun _ => none) trees0) with ⟨st1, f⟩
    rw [hf] at hflow
    simp only at hflow
    subst hflow
    simp only [filepath.runVisits]
    have hvflow := runVisits_set_flow L r [v] st1
      (fun p hp => by rw [List.mem_singleton.1 hp]; exact hcv)
    simp only [filepath.runVisits] at hvflow
    have hat : (walkFnSet L r v (filepath.perrOf v.node) st1).1.2 (keyOf L.host v) = some tr := by
      unfold walkFnSet
      rw [hcv.1]
      simp only [filepath.Rel_eq]
      exact rangeExtsSet_at L r v _ _ buf trees (keyOf L.host v) tr hrd hptrees hmem huniq hne
        r.Exts st1 (Or.inl hm)
    rcases hf2 : walkFnSet L r v (filepath.perrOf v.node) st1 with ⟨st2, f2⟩
    rw [hf2] at hvflow hat
    cases f2 with
    | next =>
      simp only
      rw [runVisits_set_other L r post st2 (keyOf L.host v) hpost]
      exact hat
    | fail e => simp at hvflow
    | panic e => simp at hvflow

/-- Witness of C1: the tree with `index.html` = `"Hello"` and
`partials/nav.html` = `"<nav/>"` under the extensions of `New` gives `"index"`
holding `"Hello"` and `"partials/nav"` holding `"<nav/>"`, on a host whose
separator is the backslash too, and `page.tpl.html` is registered as `"page"`
when `.tpl.html` is configured. -/
theorem compile_registers_matched_witness :
    ((compile posixLibrary.host (New _) siteTree).outcome = .returned () ∧
      (compile posixLibrary.host (New _) siteTree).Templates (keyOf posixLibrary.host indexPath)
        = some ⟨"index"⟩ ∧
      Ref.tree (compileSet posixLibrary (New _) siteTree).2 ⟨keyOf posixLibrary.host indexPath⟩
        = some "Hello") ∧
    (compileSet posixLibrary (New _) siteTree).1.Templates "partials/nav"
      = some ⟨"partials/nav"⟩ ∧
    Ref.tree (compileSet posixLibrary (New _) siteTree).2 ⟨"partials/nav"⟩ = some "<nav/>" ∧
    (compileSet (exampleLibrary '\\') (New _) siteTree).1.Templates "partials/nav"
      = some ⟨"partials/nav"⟩ ∧
    Ref.tree (compileSet (exampleLibrary '\\') (New _) siteTree).2 ⟨"partials/nav"⟩
      = some "<nav/>" ∧
    (compileSet posixLibrary (withExts _ [".tpl.html"]) tplTree).1.Templates "page"
      = some ⟨"page"⟩ ∧
    Ref.tree (compileSet posixLibrary (withExts _ [".tpl.html"]) tplTree).2 ⟨"page"⟩
      = some "P" := by
  refine ⟨?_, by decide, by decide, by decide, by decide, by decide, by decide⟩
  obtain ⟨_, hout, _, _, hval, buf, trees, hrd, hp, hbody⟩ :=
    compile_registers_matched posixLibrary (New _) siteTree ⟨_, rfl⟩ (by decide)
      [⟨[], siteTree⟩] indexPath [partialsPath, navPath] rfl (by decide)
  have hbuf : "Hello" = buf := Except.ok.inj hrd
  subst hbuf
  have htrees : [("index", "Hello")] = trees := Except.ok.inj hp
  subst htrees
  refine ⟨hout, hval, hbody "Hello" (List.mem_cons_self _ _) ?_ (by decide) ?_⟩
  · intro t ht
    rcases List.mem_cons.1 ht with h1 | h1
    · exact (Prod.mk.inj h1).2
    · exact absurd h1 (List.not_mem_nil _)
  · intro w hw hmw buf1 trees1 hr1 hp1 t
    rcases List.mem_cons.1 hw with h1 | h1
    · subst h1
      exact absurd hmw (by decide)
    · rcases List.mem_cons.1 h1 with h2 | h2
      · subst h2
        have hb1 : "<nav/>" = buf1 := Except.ok.inj hr1
        subst hb1
        have ht1 : [("partials/nav", "<nav/>")] = trees1 := Except.ok.inj hp1
        subst ht1
        intro hmem
        rcases List.mem_cons.1 hmem with h3 | h3
        · exact absurd (Prod.mk.inj h3).1 (by decide)
        · exact absurd h3 (List.not_mem_nil _)
      · exact absurd h2 (List.not_mem_nil _)

/-- Counterexample to C1 as stated.  With `a.html` = `"A"` and `b.html`, whose
text is a `define` of the template `a` with body `FROM_B` followed by `B`, the
walk meets no error, both files parse, `a.html` is matched and is the only
entry that derives the key `"a"`; yet the template stored under `"a"` holds
`FROM_B` when the build ends, not the contents of `a.html`.  With `.html` and
`.tpl` configured, `a.html` = `"A"` and `a.tpl` = `"B"` both derive `"a"`,
and the template stored under `"a"` holds `B`. -/
theorem compile_later_file_rewrites_template :
    filepath.visits defineTree = [⟨[], defineTree⟩, dupFirst, defineSecond] ∧
    PlaceholderParses posixLibrary.host (New _) ∧
    (∀ p ∈ filepath.visits defineTree, Clean posixLibrary.host (New _) p) ∧
    (compile posixLibrary.host (New _) defineTree).outcome = .returned () ∧
    Matched posixLibrary.host (New _) dupFirst ∧
    keyOf posixLibrary.host dupFirst = "a" ∧
    keyOf posixLibrary.host defineSecond = "b" ∧
    ioutil.ReadFile dupFirst = .ok "A" ∧
    posixLibrary.Parse none "a" "A" = .ok [("a", "A")] ∧
    (compile posixLibrary.host (New _) defineTree).Templates "a" = some ⟨"a"⟩ ∧
    Ref.tree (compileSet posixLibrary (New _) defineTree).2 ⟨"a"⟩ = some "FROM_B" ∧
    Ref.tree (compileSet posixLibrary (New _) defineTree).2 ⟨"a"⟩ ≠ some "A" ∧
    filepath.visits dupTree = [⟨[], dupTree⟩, dupFirst, dupSecond] ∧
    (∀ p ∈ filepath.visits dupTree, Clean posixLibrary.host (withExts _ [".html", ".tpl"]) p) ∧
    (compile posixLibrary.host (withExts _ [".html", ".tpl"]) dupTree).outcome
      = .returned () ∧
    Matched posixLibrary.host (withExts _ [".html", ".tpl"]) dupFirst ∧
    Ref.tree (compileSet posixLibrary (withExts _ [".html", ".tpl"]) dupTree).2 ⟨"a"⟩
      = some "B" :=
  ⟨rfl, ⟨_, rfl⟩, by decide, by decide, by decide, by decide, by decide, rfl, rfl, by decide,
    by decide, by decide, rfl, by decide, by decide, by decide, by decide⟩

/-! ## Failures of the build -/

theorem register_no_fail (H : Host) (r : Render H) (p : Path) (m : Registry H.Tmpl)
    (h : filepath.perrOf p.node = none) :
    (register H r p m).2 = .next ∨ ∃ e, (register H r p m).2 = .panic e := by
  unfold register
  rw [h]
  simp only
  split
  · cases ioutil.ReadFile p with
    | error e => exact Or.inr ⟨e, rfl⟩
    | ok buf =>
      simp only
      cases H.Parse r.TemplateFuncMap (keyOf H p) buf with
      | error e => exact Or.inr ⟨e, rfl⟩
      | ok t => exact Or.inl rfl
  · exact Or.inl rfl

theorem build_no_fail (H : Host) (r : Render H) (ps : List Path) (m : Registry H.Tmpl)
    (h : ∀ p ∈ ps, filepath.perrOf p.node = none) :
    (build H r ps m).2 = .next ∨ ∃ e, (build H r ps m).2 = .panic e := by
  induction ps generalizing m with
  | nil => exact Or.inl rfl
  | cons p ps ih =>
    rw [build_cons]
    have h1 := register_no_fail H r p m (h p (List.mem_cons_self _ _))
    have h2 := fun m1 => ih m1 (fun q hq => h q (List.mem_cons_of_mem _ hq))
    rcases hr : register H r p m with ⟨m1, f⟩
    rw [hr] at h1
    cases f with
    | next => exact h2 m1
    | fail e =>
      rcases h1 with h1 | ⟨e1, h1⟩ <;> cases h1
    | panic e => exact Or.inr ⟨e, rfl⟩

theorem register_parse_error (H : Host) (r : Render H) (p : Path) (m : Registry H.Tmpl)
    (hperr : filepath.perrOf p.node = none) (hm : Matched H r p) (buf e : String)
    (hrd : ioutil.ReadFile p = .ok buf)
    (hpa : H.Parse r.TemplateFuncMap (keyOf H p) buf = .error e) :
    register H r p m = (m, .panic e) := by
  have hm1 : getExt (relPath H p) ∈ r.Exts := hm
  unfold register
  rw [hperr]
  simp only [if_pos hm1, hrd, hpa]

theorem compile_Templates_of_placeholder (H : Host) (r : Render H) (fs : Node)
    (hph : PlaceholderParses H r) :
    (compile H r fs).Templates = (build H r (filepath.visits fs) r.Templates).1 := by
  obtain ⟨t, ht⟩ := hph
  rw [compile_eq_build, ht]
  rcases build H r (filepath.visits fs) r.Templates with ⟨m, f⟩
  cases f <;> rfl

theorem compile_Templates_cases (H : Host) (r : Render H) (fs : Node) :
    (compile H r fs).Templates = r.Templates ∨
      (compile H r fs).Templates = (build H r (filepath.visits fs) r.Templates).1 := by
  cases hp : H.Parse none r.TemplatesDir "SlothNinja" with
  | error e => left; rw [compile_eq_build, hp]
  | ok t => right; exact compile_Templates_of_placeholder H r fs ⟨t, hp⟩

/-- C3, evaluated on the code: when the templates directory does not exist, the
callback hands the error of `os.Lstat` back to `filepath.Walk`, `Walk` returns
it, and `compile` drops it: `compile` and `Init` return normally, with the
empty registry.  When an entry in the middle of the tree cannot be reached, the
walk stops there and `compile` returns normally with the registry built so
far: `a.html` is registered and `z.html` is not. -/
theorem compile_drops_walk_error :
    (filepath.Walk missingRoot (walkFn posix (New posix)) Registry.empty).2
      = .fail "lstat app/views/: no such file or directory" ∧
    (compile posix (New posix) missingRoot).outcome = .returned () ∧
    (∃ r1, (Init posix (New posix) missingRoot).outcome = .returned r1) ∧
    (∀ k, (compile posix (New posix) missingRoot).Templates k = none) ∧
    (filepath.Walk gapTree (walkFn posix (New posix)) Registry.empty).2
      = .fail "lstat app/views/m.html: permission denied" ∧
    (compile posix (New posix) gapTree).outcome = .returned () ∧
    (compile posix (New posix) gapTree).Templates "a" = some ⟨"a", "A"⟩ ∧
    (compile posix (New posix) gapTree).Templates "z" = none :=
  ⟨by decide, by decide, ⟨_, rfl⟩, fun _ => rfl, by decide, by decide, by decide, by decide⟩

/-- C4, amended: when the walk reaches, with no walk error at an earlier entry,
a matched file whose contents fail to parse, `compile` and `Init` panic instead
of returning.  The failure is not atomic: the build writes into the registry
the caller holds, so every key it held before is still there, and when the
earlier entries were read and parsed the panic is the parse error of this file
and the registry then holds the key of every matched entry visited before it;
all other keys read as before the build, so nothing comes from later entries. -/
theorem compile_parse_failure (H : Host) (r : Render H) (fs : Node)
    (hph : PlaceholderParses H r)
    (pre : List Path) (v : Path) (post : List Path)
    (hv : filepath.visits fs = pre ++ v :: post)
    (hpre : ∀ w ∈ pre, filepath.perrOf w.node = none)
    (hperr : filepath.perrOf v.node = none) (hm : Matched H r v) (buf e : String)
    (hrd : ioutil.ReadFile v = .ok buf)
    (hpa : H.Parse r.TemplateFuncMap (keyOf H v) buf = .error e) :
    (∃ e1, (compile H r fs).outcome = .panicked e1 ∧ (Init H r fs).outcome = .panicked e1) ∧
    (∀ k, r.Templates.HasKey k → (compile H r fs).Templates.HasKey k) ∧
    ((∀ w ∈ pre, Clean H r w) →
      (compile H r fs).outcome = .panicked e ∧
      (∀ w ∈ pre, Matched H r w → (compile H r fs).Templates.HasKey (keyOf H w)) ∧
      (∀ k, (∀ w ∈ pre, Matched H r w → keyOf H w ≠ k) →
        (compile H r fs).Templates k = r.Templates k)) := by
  have hT := compile_Templates_of_placeholder H r fs hph
  have hsplit : build H r (filepath.visits fs) r.Templates
      = match build H r pre r.Templates with
        | (m1, .next) => (m1, .panic e)
        | x => x := by
    rw [hv, build_append]
    rcases build H r pre r.Templates with ⟨m1, f⟩
    cases f
    · simp only [build_cons, register_parse_error H r v m1 hperr hm buf e hrd hpa]
    · rfl
    · rfl
  refine ⟨?_, ?_, ?_⟩
  · have hp : ∃ e1, (build H r (filepath.visits fs) r.Templates).2 = .panic e1 := by
      rw [hsplit]
      rcases build_no_fail H r pre r.Templates hpre with h | ⟨e1, h⟩
      · rcases hb : build H r pre r.Templates with ⟨m1, f⟩
        rw [hb] at h
        simp only at h
        subst h
        exact ⟨e, rfl⟩
      · rcases hb : build H r pre r.Templates with ⟨m1, f⟩
        rw [hb] at h
        simp only at h
        subst h
        exact ⟨e1, rfl⟩
    obtain ⟨e1, he1⟩ := hp
    have hc := compile_of_build_panic H r fs hph e1 he1
    have ho : (compile H r fs).outcome = .panicked e1 := by rw [hc]
    exact ⟨e1, ho, Init_of_panicked H r fs e1 ho⟩
  · intro k hk
    rw [hT]
    exact build_mono H r _ r.Templates k hk
  · intro hclean
    have hpn := build_clean H r pre r.Templates hclean
    have hfull : build H r (filepath.visits fs) r.Templates
        = ((build H r pre r.Templates).1, .panic e) := by
      rw [hsplit]
      rcases hb : build H r pre r.Templates with ⟨m1, f⟩
      rw [hb] at hpn
      simp only at hpn
      subst hpn
      rfl
    have hc := compile_of_build_panic H r fs hph e (by rw [hfull])
    have hT2 : (compile H r fs).Templates = (build H r pre r.Templates).1 := by
      rw [hT, hfull]
    refine ⟨by rw [hc], ?_, ?_⟩
    · intro w hw hmw
      obtain ⟨_, _, _, _, _, t, _, _, hlk⟩ :=
        build_clean_lookup H r pre r.Templates (keyOf H w) hclean ⟨w, hw, hmw, rfl⟩
      rw [hT2]
      simp [Registry.HasKey, hlk]
    · intro k hk
      rw [hT2]
      exact build_lookup_ne H r pre r.Templates k hk

/-- Witness of C4: in the tree with `a.html` = `"ok"` and `b.html` = `"{{"` the
build panics with the parse error of `b.html`, and `"a"` is in the registry. -/
theorem compile_parse_failure_witness :
    (∃ e1, (compile posix (New posix) brokenTree).outcome = .panicked e1 ∧
      (Init posix (New posix) brokenTree).outcome = .panicked e1) ∧
    (∀ k, (New posix).Templates.HasKey k →
      (compile posix (New posix) brokenTree).Templates.HasKey k) ∧
    ((∀ w ∈ [⟨[], brokenTree⟩, brokenFirst], Clean posix (New posix) w) →
      (compile posix (New posix) brokenTree).outcome = .panicked "template: unclosed action" ∧
      (∀ w ∈ [⟨[], brokenTree⟩, brokenFirst], Matched posix (New posix) w →
        (compile posix (New posix) brokenTree).Templates.HasKey (keyOf posix w)) ∧
      (∀ k, (∀ w ∈ [⟨[], brokenTree⟩, brokenFirst], Matched posix (New posix) w →
          keyOf posix w ≠ k) →
        (compile posix (New posix) brokenTree).Templates k = (New posix).Templates k)) :=
  compile_parse_failure posix (New posix) brokenTree ⟨_, rfl⟩
    [⟨[], brokenTree⟩, brokenFirst] brokenSecond [] rfl (by decide) rfl (by decide)
    "\x7b\x7b" "template: unclosed action" rfl rfl

/-- Counterexample to C4 as stated: in the tree with `a.html` = `"ok"` and
`b.html` = `"{{"` the build from the empty registry of `New` panics on
`b.html`, and the registry the caller holds has the entry `"a"`, which the
failed build added. -/
theorem compile_failure_keeps_partial_registry :
    filepath.visits brokenTree = [⟨[], brokenTree⟩, brokenFirst, brokenSecond] ∧
    Matched posix (New posix) brokenSecond ∧
    ioutil.ReadFile brokenSecond = .ok "\x7b\x7b" ∧
    posix.Parse none (keyOf posix brokenSecond) "\x7b\x7b" = .error "template: unclosed action" ∧
    (compile posix (New posix) brokenTree).outcome = .panicked "template: unclosed action" ∧
    (New posix).Templates "a" = none ∧
    (compile posix (New posix) brokenTree).Templates "a" = some ⟨"a", "ok"⟩ ∧
    (compile posix (New posix) brokenTree).Templates ≠ (New posix).Templates :=
  ⟨rfl, by decide, rfl, rfl, by decide, rfl, by decide,
    fun h => absurd (congrFun h "a") (by decide)⟩

/-! ## Rebuilding -/

/-- C5, amended: a rebuild does not replace the registry, it writes into it.
Rebuilding on `T2` a registry that was built from `T1` gives the registry a
build on `T2` from the empty registry gives, laid over the registry built from
`T1`: the keys the build on `T2` writes hold its templates and every other key
keeps the entry it had.  So every key present after the build on `T1` is still
present after the rebuild, whether or not a file of `T2` derives it.  The
rebuild ends the way the build on `T2` from the empty registry ends. -/
theorem compile_overlays (H : Host) (r : Render H) (T1 T2 : Node) :
    (compile H { r with Templates := (compile H r T1).Templates } T2).Templates
      = Registry.overlay (compile H { r with Templates := Registry.empty } T2).Templates
          (compile H r T1).Templates ∧
    (Init H { r with Templates := (compile H r T1).Templates } T2).Templates
      = Registry.overlay (Init H { r with Templates := Registry.empty } T2).Templates
          (Init H r T1).Templates ∧
    (compile H { r with Templates := (compile H r T1).Templates } T2).outcome
      = (compile H { r with Templates := Registry.empty } T2).outcome ∧
    (∀ k, (compile H r T1).Templates.HasKey k →
      (compile H { r with Templates := (compile H r T1).Templates } T2).Templates.HasKey k) := by
  have h := compile_from H r (compile H r T1).Templates T2
  refine ⟨h.1, ?_, h.2, ?_⟩
  · rw [Init_Templates, Init_Templates, Init_Templates]
    exact h.1
  · intro k hk
    rw [h.1]
    exact Registry.hasKey_overlay_right _ _ k hk

/-- Counterexample to C5 as stated: build on a tree with `old.html`, then
rebuild on a tree with `new.html` only.  The key `"old"`, derived from no file
of the second tree, is still present after the rebuild, and a build on the
second tree from the empty registry does not have it. -/
theorem compile_rebuild_keeps_old_keys :
    (compile posix { New posix with Templates := (compile posix (New posix) oldTree).Templates }
        newTree).outcome = .returned () ∧
    (compile posix { New posix with Templates := (compile posix (New posix) oldTree).Templates }
        newTree).Templates "old" = some ⟨"old", "old"⟩ ∧
    (compile posix { New posix with Templates := (compile posix (New posix) oldTree).Templates }
        newTree).Templates "new" = some ⟨"new", "new"⟩ ∧
    (compile posix (New posix) newTree).Templates "old" = none ∧
    (compile posix { New posix with Templates := (compile posix (New posix) oldTree).Templates }
        newTree).Templates ≠ (compile posix (New posix) newTree).Templates :=
  ⟨by decide, by decide, by decide, by decide,
    fun h => absurd (congrFun h "old") (by decide)⟩

/-- C9: when the build on a tree returns, a second build on the unchanged tree
returns too and leaves the set of registry keys as it was after the first, for
every starting registry; so does a second `Init` on the `Render` the first
`Init` returned. -/
theorem compile_idempotent_on_keys (H : Host) (r : Render H) (fs : Node)
    (h : (compile H r fs).outcome = .returned ()) :
    (compile H { r with Templates := (compile H r fs).Templates } fs).outcome = .returned () ∧
    (∀ k, (compile H { r with Templates := (compile H r fs).Templates } fs).Templates.HasKey k ↔
      (compile H r fs).Templates.HasKey k) ∧
    (∃ r1, (Init H r fs).outcome = .returned r1 ∧
      (∃ r2, (Init H r1 fs).outcome = .returned r2) ∧
      ∀ k, (Init H r1 fs).Templates.HasKey k ↔ (Init H r fs).Templates.HasKey k) := by
  have h1 := compile_from H r r.Templates fs
  have h2 := compile_from H r (compile H r fs).Templates fs
  have hr : ({ r with Templates := r.Templates } : Render H) = r := rfl
  rw [hr] at h1
  have hsame : (compile H { r with Templates := (compile H r fs).Templates } fs).Templates
      = (compile H r fs).Templates := by
    rw [h2.1]
    conv_lhs => rw [h1.1]
    conv_rhs => rw [h1.1]
    exact Registry.overlay_idem _ _
  have hout : (compile H { r with Templates := (compile H r fs).Templates } fs).outcome
      = .returned () := by
    rw [h2.2, ← h1.2]; exact h
  refine ⟨hout, fun k => by rw [hsame], ?_⟩
  refine ⟨_, Init_of_returned H r fs h, ⟨_, Init_of_returned H _ fs hout⟩, fun k => ?_⟩
  rw [Init_Templates, Init_Templates, hsame]

/-- Witness of C9: two builds in a row on the tree with `index.html` and
`partials/nav.html`. -/
theorem compile_idempotent_on_keys_witness :
    (compile posix (New posix) siteTree).outcome = .returned () ∧
    ((compile posix { New posix with Templates := (compile posix (New posix) siteTree).Templates }
        siteTree).outcome = .returned () ∧
      (∀ k, (compile posix
            { New posix with Templates := (compile posix (New posix) siteTree).Templates }
            siteTree).Templates.HasKey k ↔
        (compile posix (New posix) siteTree).Templates.HasKey k) ∧
      (∃ r1, (Init posix (New posix) siteTree).outcome = .returned r1 ∧
        (∃ r2, (Init posix r1 siteTree).outcome = .returned r2) ∧
        ∀ k, (Init posix r1 siteTree).Templates.HasKey k ↔
          (Init posix (New posix) siteTree).Templates.HasKey k)) :=
  ⟨by decide, compile_idempotent_on_keys posix (New posix) siteTree (by decide)⟩

/-! ## Entries the build skips -/

/-- C7, amended: for a file of the tree whose path relative to the root has no
`.` in it, in a directory name as little as in the file name, the extension is
the empty string; so when every configured extension is non-empty the file is
not matched, and the callback leaves the registry as it is and returns a `nil`
error whatever reading the file would give, an error included: the file is not
read, adds no entry and fails nothing. -/
theorem walkFn_skips_dotless (H : Host) (r : Render H) (fs : Node) (p : Path)
    (_hp : p ∈ filepath.visits fs) (rd : Except String String) (_hfile : p.node = .file rd)
    (hdot : '.' ∉ (relPath H p).data) :
    getExt (relPath H p) = "" ∧
    ((∀ e ∈ r.Exts, e ≠ "") →
      ¬ Matched H r p ∧
      ∀ (m : Registry H.Tmpl) (rd1 : Except String String),
        walkFn H r ⟨p.names, .file rd1⟩ none m = (m, .next)) := by
  have hext : getExt (relPath H p) = "" := getExt_of_no_dot (relPath H p) hdot
  refine ⟨hext, fun hne => ?_⟩
  have hnm : ¬ Matched H r p := by
    intro hm
    have hm1 : getExt (relPath H p) ∈ r.Exts := hm
    rw [hext] at hm1
    exact hne "" hm1 rfl
  refine ⟨hnm, fun m rd1 => ?_⟩
  have hw := walkFn_eq_register H r ⟨p.names, .file rd1⟩ m
  have hnm1 : ¬ getExt (relPath H ⟨p.names, .file rd1⟩) ∈ r.Exts := hnm
  simp only [filepath.perrOf] at hw
  rw [hw]
  unfold register
  simp only [filepath.perrOf, if_neg hnm1]

/-- Witness of C7: the unreadable file `LICENSE` under the extensions of `New`. -/
theorem walkFn_skips_dotless_witness :
    '.' ∉ (relPath posix licensePath).data ∧
    (getExt (relPath posix licensePath) = "" ∧
      ((∀ e ∈ (New posix).Exts, e ≠ "") →
        ¬ Matched posix (New posix) licensePath ∧
        ∀ (m : Registry posix.Tmpl) (rd1 : Except String String),
          walkFn posix (New posix) ⟨licensePath.names, .file rd1⟩ none m = (m, .next))) ∧
    (compile posix (New posix) licenseTree).outcome = .returned () :=
  ⟨by decide,
    walkFn_skips_dotless posix (New posix) licenseTree licensePath
      (List.mem_cons_of_mem _ (List.mem_cons_self _ _)) (.error "permission denied") rfl
      (by decide),
    by decide⟩

/-- Counterexample to C7 as stated: the file `README` in the directory `v1.0`
has no `.` in its name, and the extension computed for it, from its relative
path `v1.0/README`, is `.0/README`, not the empty string; with that non-empty
extension configured the file is read and registered under `"v1"`. -/
theorem getExt_reads_directory_dots :
    filepath.visits dottedDirTree
      = [⟨[], dottedDirTree⟩, ⟨["v1.0"], .dir (.cons "README" (textFile "docs") .nil)⟩,
          readmePath] ∧
    readmePath.names.getLast? = some "README" ∧
    '.' ∉ "README".data ∧
    relPath posix readmePath = "v1.0/README" ∧
    getExt (relPath posix readmePath) = ".0/README" ∧
    getExt (relPath posix readmePath) ≠ "" ∧
    (∀ e ∈ (withExts posix [".0/README"]).Exts, e ≠ "") ∧
    (compile posix (withExts posix [".0/README"]) dottedDirTree).outcome = .returned () ∧
    (compile posix (withExts posix [".0/README"]) dottedDirTree).Templates "v1"
      = some ⟨"v1", "docs"⟩ :=
  ⟨rfl, by decide, by decide, by decide, by decide, by decide, by decide, by decide, by decide⟩

/-- C8, amended: in a build from the empty registry every key of the registry
is the name derived from some entry of the tree whose extension is configured.
So for a file whose extension is none of the configured ones, the registry has
no key equal to the name derived from the file, unless an entry whose extension
is configured derives that same name. -/
theorem compile_unmatched_adds_no_key (H : Host) (r : Render H) (fs : Node)
    (hempty : r.Templates = Registry.empty) (f : Path) (_hf : f ∈ filepath.visits fs)
    (_hnm : ¬ Matched H r f)
    (hne : ∀ w ∈ filepath.visits fs, Matched H r w → keyOf H w ≠ keyOf H f) :
    (compile H r fs).Templates (keyOf H f) = none ∧
    (Init H r fs).Templates (keyOf H f) = none ∧
    (∀ k, (compile H r fs).Templates.HasKey k →
      ∃ w ∈ filepath.visits fs, Matched H r w ∧ keyOf H w = k) := by
  have hnone : (compile H r fs).Templates (keyOf H f) = none := by
    rcases compile_Templates_cases H r fs with h | h
    · rw [h, hempty]; rfl
    · rw [h, build_lookup_ne H r _ r.Templates (keyOf H f) hne, hempty]; rfl
  refine ⟨hnone, by rw [Init_Templates]; exact hnone, fun k hk => ?_⟩
  rcases compile_Templates_cases H r fs with h | h
  · rw [h, hempty] at hk
    simp [Registry.HasKey, Registry.empty] at hk
  · rw [h] at hk
    rcases build_key_origin H r _ r.Templates k hk with h1 | h1
    · rw [hempty] at h1
      simp [Registry.HasKey, Registry.empty] at h1
    · exact h1

/-- Witness of C8: `page.tpl.html` with the extensions `[".html"]` of `New` is
not matched, and `"page"` is not a key. -/
theorem compile_unmatched_adds_no_key_witness :
    ¬ Matched posix (New posix) tplPath ∧ keyOf posix tplPath = "page" ∧
    ((compile posix (New posix) tplTree).Templates (keyOf posix tplPath) = none ∧
      (Init posix (New posix) tplTree).Templates (keyOf posix tplPath) = none ∧
      (∀ k, (compile posix (New posix) tplTree).Templates.HasKey k →
        ∃ w ∈ filepath.visits tplTree, Matched posix (New posix) w ∧ keyOf posix w = k)) :=
  ⟨by decide, by decide,
    compile_unmatched_adds_no_key posix (New posix) tplTree rfl tplPath
      (List.mem_cons_of_mem _ (List.mem_cons_self _ _)) (by decide) (by decide)⟩

/-- Counterexample to C8 as stated: with `page.html` next to `page.tpl.html`
and the extensions `[".html"]` of `New`, the extension `.tpl.html` of
`page.tpl.html` is not configured, and the registry built from the empty
registry has the key `"page"`, the name derived from `page.tpl.html`. -/
theorem compile_unmatched_name_shadowed :
    filepath.visits shadowTree = [⟨[], shadowTree⟩, ⟨["page.html"], textFile "X"⟩, tplPath] ∧
    getExt (relPath posix tplPath) = ".tpl.html" ∧
    ¬ Matched posix (New posix) tplPath ∧
    keyOf posix tplPath = "page" ∧
    (New posix).Templates = Registry.empty ∧
    (compile posix (New posix) shadowTree).outcome = .returned () ∧
    (compile posix (New posix) shadowTree).Templates (keyOf posix tplPath)
      = some ⟨"page", "X"⟩ ∧
    (compile posix (New posix) shadowTree).Templates.HasKey "page" :=
  ⟨rfl, by decide, by decide, by decide, rfl, by decide, by decide, by decide⟩

/-- C10, evaluated on the code: the callback does not look at what kind of
entry it is given.  A directory named `emails.html` under the extensions
`[".html"]` of `New` is matched and handed to `ioutil.ReadFile`, which fails,
and the build panics; so does the build on any directory root when `"."` is a
configured extension, the relative path of the root being `"."`. -/
theorem compile_reads_matched_directory :
    filepath.visits mailTree = [⟨[], mailTree⟩, ⟨["emails.html"], .dir .nil⟩] ∧
    Matched posix (New posix) ⟨["emails.html"], .dir .nil⟩ ∧
    (compile posix (New posix) mailTree).outcome = .panicked "read: is a directory" ∧
    (Init posix (New posix) mailTree).outcome = .panicked "read: is a directory" ∧
    relPath posix ⟨[], siteTree⟩ = "." ∧
    Matched posix (withExts posix ["."]) ⟨[], siteTree⟩ ∧
    (compile posix (withExts posix ["."]) siteTree).outcome
      = .panicked "read: is a directory" :=
  ⟨rfl, by decide, by decide, Init_of_panicked _ _ _ _ (by decide), by decide, by decide,
    by decide⟩

/-! ## `Render.Instance` -/

/-- C2: `Instance(name, data)` returns, without failing, a `render.HTML` whose
`Data` is `data` and whose `Template` is what the registry holds under `name`:
the stored template when `name` is a key, the `nil` reference when it is not;
the registry is left as it was. -/
theorem Instance_lookup {δ : Type} (H : Host) (r : Render H) (name : String) (data : δ) :
    (∃ h : HTML H δ, (Instance H r name data).outcome = .returned h ∧
      h.Data = data ∧ h.Template = r.Templates name ∧
      (∀ t, r.Templates name = some t → h.Template = some t) ∧
      (¬ r.Templates.HasKey name → h.Template = none)) ∧
    (Instance H r name data).Templates = r.Templates := by
  refine ⟨⟨_, rfl, rfl, rfl, fun t ht => ht, ?_⟩, rfl⟩
  intro hk
  cases hn : r.Templates name with
  | none => simp only [Instance, hn]
  | some t => exact absurd (by simp [Registry.HasKey, hn]) hk

end render
